import Mathlib

/-!
Verification of the arbor code-graph core against its specification.

This file shallowly embeds the Rust sources of the `arbor` repository
(crates `arbor-core` and `arbor-graph`) into Lean 4 and proves, or refutes,
the frozen list of claims about them.

Modelling conventions:
* Rust `usize`/`u32`/`u64` are modelled as `Nat`; wrap-around is made explicit
  (`% 2 ^ 64`) where the Rust code relies on it (the SipHash embedding).
* Rust `String`/`&str` are Lean `String`; lengths are modelled at the
  character level, which agrees with Rust's byte-level `len` on ASCII data
  (all concrete inputs used below are ASCII).
* `HashMap` is modelled as an association list where `insert` removes the
  previous binding, so iteration sees each key once (like the Rust map);
  the map's unspecified iteration order is fixed to insertion order.  Every
  claim settled below is insensitive to that order.
* `f64` centrality scores are modelled as `Rat` (the code never produces NaN
  on the paths the claims touch, so `partial_cmp` is total there).
* Wall-clock readings (`query_time_ms`) are modelled as `0`; no claim
  mentions them.
-/

namespace Arbor

/-- The kind of code entity, from `arbor-core/src/node.rs` (`NodeKind`).
Constructors are prefixed with `k` because several Rust variant names are
Lean keywords. -/
inductive NodeKind where
  | kFunction
  | kMethod
  | kClass
  | kInterface
  | kStruct
  | kEnum
  | kVariable
  | kConstant
  | kTypeAlias
  | kModule
  | kImport
  | kExport
  | kConstructor
  | kField
deriving DecidableEq, Repr

/-- `Display for NodeKind` from `node.rs`. -/
def NodeKind.toStr : NodeKind → String
  | .kFunction => "function"
  | .kMethod => "method"
  | .kClass => "class"
  | .kInterface => "interface"
  | .kStruct => "struct"
  | .kEnum => "enum"
  | .kVariable => "variable"
  | .kConstant => "constant"
  | .kTypeAlias => "type_alias"
  | .kModule => "module"
  | .kImport => "import"
  | .kExport => "export"
  | .kConstructor => "constructor"
  | .kField => "field"

/-- Discriminant of the `NodeKind` enum in declaration order (the value the
derived `Hash` implementation feeds to the hasher). -/
def NodeKind.disc : NodeKind → Nat
  | .kFunction => 0
  | .kMethod => 1
  | .kClass => 2
  | .kInterface => 3
  | .kStruct => 4
  | .kEnum => 5
  | .kVariable => 6
  | .kConstant => 7
  | .kTypeAlias => 8
  | .kModule => 9
  | .kImport => 10
  | .kExport => 11
  | .kConstructor => 12
  | .kField => 13

/-- Visibility of a code entity, from `node.rs` (`Visibility`). -/
inductive Visibility where
  | vPrivate
  | vPublic
  | vProtected
  | vInternal
deriving DecidableEq, Repr

/-- A code entity record, from `arbor-core/src/node.rs` (`CodeNode`). -/
structure CodeNode where
  id : String
  name : String
  qualified_name : String
  kind : NodeKind
  file : String
  line_start : Nat
  line_end : Nat
  column : Nat
  signature : Option String
  visibility : Visibility
  is_async : Bool
  is_static : Bool
  is_exported : Bool
  docstring : Option String
  byte_start : Nat
  byte_end : Nat
  references : List String
deriving DecidableEq, Repr

/-! ### Vertex identity (`CodeNode::compute_id`, claim C6)

`compute_id` hashes `(file, qualified_name, kind)` with
`std::collections::hash_map::DefaultHasher` and renders the 64-bit result
with `format!("{:016x}", ...)`.  `DefaultHasher::new()` is SipHash-1-3 with
both keys zero, which we implement below over `Nat` with explicit
`% 2 ^ 64` wrapping.  The `Hash` protocol feeds, for each `&str`, its UTF-8
bytes followed by a `0xff` terminator byte; the derived `Hash` for the
field-less `NodeKind` enum feeds its discriminant as a little-endian
machine word (8 bytes on a 64-bit platform). -/

/-- Truncation to 64 bits (`u64` wrap-around semantics). -/
def m64 (x : Nat) : Nat := x % 2 ^ 64

/-- 64-bit left rotation. -/
def rotl64 (x r : Nat) : Nat := m64 ((x <<< r) ||| (x >>> (64 - r)))

/-- SipHash internal state (`v0, v1, v2, v3`, each a `u64`). -/
structure SipState where
  v0 : Nat
  v1 : Nat
  v2 : Nat
  v3 : Nat

/-- One SipHash round. -/
def sipRound (s : SipState) : SipState :=
  let v0 := m64 (s.v0 + s.v1)
  let v1 := rotl64 s.v1 13
  let v1 := v1 ^^^ v0
  let v0 := rotl64 v0 32
  let v2 := m64 (s.v2 + s.v3)
  let v3 := rotl64 s.v3 16
  let v3 := v3 ^^^ v2
  let v0 := m64 (v0 + v3)
  let v3 := rotl64 v3 21
  let v3 := v3 ^^^ v0
  let v2 := m64 (v2 + v1)
  let v1 := rotl64 v1 17
  let v1 := v1 ^^^ v2
  let v2 := rotl64 v2 32
  ⟨v0, v1, v2, v3⟩

/-- Little-endian interpretation of up to 8 bytes as a word. -/
def leWord (bytes : List Nat) : Nat :=
  bytes.foldr (fun b acc => b + 256 * acc) 0

/-- Absorb one 8-byte message word (one compression round in SipHash-1-3). -/
def sipAbsorb (s : SipState) (w : Nat) : SipState :=
  let s := { s with v3 := s.v3 ^^^ w }
  let s := sipRound s
  { s with v0 := s.v0 ^^^ w }

/-- Process the full 8-byte blocks of the message. Returns the final state
and the trailing (fewer than 8) bytes. -/
def sipBlocks (s : SipState) : List Nat → SipState × List Nat
  | b0 :: b1 :: b2 :: b3 :: b4 :: b5 :: b6 :: b7 :: rest =>
      sipBlocks (sipAbsorb s (leWord [b0, b1, b2, b3, b4, b5, b6, b7])) rest
  | rest => (s, rest)

/-- The SipHash-1-3 computation up to the final state xor (keys `(0, 0)`,
the state `DefaultHasher::new()` starts from). -/
def sipCore (msg : List Nat) : Nat :=
  let s0 : SipState :=
    ⟨0x736f6d6570736575, 0x646f72616e646f6d, 0x6c7967656e657261, 0x7465646279746573⟩
  let (s, tail) := sipBlocks s0 msg
  let b := m64 ((msg.length % 256) <<< 56 + leWord tail)
  let s := { s with v3 := s.v3 ^^^ b }
  let s := sipRound s
  let s := { s with v0 := s.v0 ^^^ b }
  let s := { s with v2 := s.v2 ^^^ 0xff }
  let s := sipRound (sipRound (sipRound s))
  s.v0 ^^^ s.v1 ^^^ s.v2 ^^^ s.v3

/-- SipHash-1-3 with keys `(0, 0)`, over a byte stream: a 64-bit value. -/
def sipHash13 (msg : List Nat) : Nat := m64 (sipCore msg)

/-- UTF-8 bytes of a string, as naturals. -/
def utf8Bytes (s : String) : List Nat := s.toUTF8.toList.map (fun b => b.toNat)

/-- The byte stream `Hash::hash` feeds for a `&str`: UTF-8 bytes plus the
`0xff` terminator. -/
def strHashBytes (s : String) : List Nat := utf8Bytes s ++ [0xff]

/-- Little-endian bytes of a machine word (64-bit platform). -/
def wordLeBytes (n : Nat) : List Nat :=
  (List.range 8).map (fun i => (n >>> (8 * i)) % 256)

/-- The hexadecimal digit characters used by `{:x}` formatting. -/
def hexAlphabet : List Char := "0123456789abcdef".data

/-- Single lowercase hex digit. -/
def hexChar (n : Nat) : Char := hexAlphabet.getD n '0'

/-- Hex digits of `n`, most significant first (what `{:x}` prints). -/
def hexDigits (n : Nat) : List Char :=
  if _h : n < 16 then [hexChar n]
  else hexDigits (n / 16) ++ [hexChar (n % 16)]
decreasing_by exact Nat.div_lt_self (by omega) (by omega)

/-- `format!("{:016x}", h)`: hex digits, zero-padded on the left to 16. -/
def hexPad16 (h : Nat) : String :=
  let ds := hexDigits h
  String.mk (List.replicate (16 - ds.length) '0' ++ ds)

/-- `CodeNode::compute_id` from `node.rs`: hash `(file, qualified_name,
kind)` with `DefaultHasher` and render as 16 hex characters. -/
def computeId (file qualified_name : String) (kind : NodeKind) : String :=
  hexPad16 (sipHash13
    (strHashBytes file ++ strHashBytes qualified_name ++ wordLeBytes kind.disc))

/-- `CodeNode::new` from `node.rs`: fresh node with computed id and zeroed
location data. -/
def CodeNode.new (name qualified_name : String) (kind : NodeKind) (file : String) : CodeNode :=
  { id := computeId file qualified_name kind
    name := name
    qualified_name := qualified_name
    kind := kind
    file := file
    line_start := 0
    line_end := 0
    column := 0
    signature := none
    visibility := .vPrivate
    is_async := false
    is_static := false
    is_exported := false
    docstring := none
    byte_start := 0
    byte_end := 0
    references := [] }

/-- `CodeNode::with_references` builder from `node.rs`. -/
def CodeNode.with_references (n : CodeNode) (refs : List String) : CodeNode :=
  { n with references := refs }

/-! ### Query result types (`arbor-graph/src/query.rs`) -/

/-- Basic information about a node, from `query.rs` (`NodeInfo`).
`centrality : f64` is modelled as `Rat`. -/
structure NodeInfo where
  id : String
  name : String
  qualified_name : String
  kind : String
  file : String
  line_start : Nat
  line_end : Nat
  signature : Option String
  centrality : Rat
deriving DecidableEq, Repr

/-- `impl From<&CodeNode> for NodeInfo` from `query.rs` (centrality is
filled in later by the graph). -/
def NodeInfo.ofNode (node : CodeNode) : NodeInfo :=
  { id := node.id
    name := node.name
    qualified_name := node.qualified_name
    kind := node.kind.toStr
    file := node.file
    line_start := node.line_start
    line_end := node.line_end
    signature := node.signature
    centrality := 0 }

/-! ### Graph model

`arbor-graph/src/graph.rs` and `edge.rs` are not among the provided source
files (only their callers are), so the container is modelled from the spec:
§4.6 "Graph Core" (petgraph-backed directed multigraph; `add_node` rejects
duplicate `id`s by returning the existing `NodeId`; `get_index` maps an id
to a `NodeId`; `centrality` reads a stored score, `0` if unknown) and §3
"Edge: directed; primary kind is `Calls`".  A `NodeId` is the insertion
index of the vertex. -/

/-- Edge kinds.  Modelled from the spec: the model admits further kinds but
the embedded code only ever creates `Calls`. -/
inductive EdgeKind where
  | calls
deriving DecidableEq, Repr

/-- Edge payload (`Edge::new(kind)`). Modelled from the spec. -/
structure Edge where
  kind : EdgeKind
deriving DecidableEq, Repr

/-- Modelled from the spec: the in-memory directed multigraph of §4.6.
`nodes` is indexed by `NodeId`; `edges` lists `(source, target, kind)`
triples in insertion order; `centralities` is the stored score map. -/
structure ArborGraph where
  nodes : List CodeNode
  edges : List (Nat × Nat × EdgeKind)
  centralities : List (Nat × Rat)
deriving DecidableEq, Repr

/-- `ArborGraph::new()`: empty graph. -/
def ArborGraph.new : ArborGraph := ⟨[], [], []⟩

/-- Modelled from the spec §4.6: `add_node` rejects duplicate `id`s by
returning the existing `NodeId`. -/
def ArborGraph.add_node (g : ArborGraph) (n : CodeNode) : ArborGraph × Nat :=
  match g.nodes.findIdx? (fun m => m.id = n.id) with
  | some i => (g, i)
  | none => ({ g with nodes := g.nodes ++ [n] }, g.nodes.length)

/-- `get(NodeId) -> Option<&CodeNode>`. -/
def ArborGraph.get (g : ArborGraph) (i : Nat) : Option CodeNode := g.nodes.get? i

/-- `get_index(id) -> Option<NodeId>`. -/
def ArborGraph.get_index (g : ArborGraph) (id : String) : Option Nat :=
  g.nodes.findIdx? (fun m => m.id = id)

/-- `add_edge(from, to, edge)`. -/
def ArborGraph.add_edge (g : ArborGraph) (i j : Nat) (e : Edge) : ArborGraph :=
  { g with edges := g.edges ++ [(i, j, e.kind)] }

/-- `centrality(NodeId) -> f64` (0 if unknown), from the spec §4.6. -/
def ArborGraph.centrality (g : ArborGraph) (i : Nat) : Rat :=
  ((g.centralities.find? (fun p => p.1 = i)).map Prod.snd).getD 0

/-! ### Association-list map (`HashMap` model)

`insert` drops the previous binding of the key, so lookups and iteration
see each key exactly once, like the Rust `HashMap`. -/

/-- `HashMap::insert` (overwrite semantics). -/
def mapInsert {α : Type} (m : List (String × α)) (k : String) (v : α) : List (String × α) :=
  (k, v) :: m.filter (fun p => p.1 ≠ k)

/-- `HashMap::get`. -/
def mapGet {α : Type} (m : List (String × α)) (k : String) : Option α :=
  (m.find? (fun p => p.1 = k)).map Prod.snd

/-! ### Graph builder (`arbor-graph/src/builder.rs`) -/

/-- `GraphBuilder` from `builder.rs`: a graph plus the name→id map used for
edge resolution. -/
structure GraphBuilder where
  graph : ArborGraph
  name_to_id : List (String × String)

/-- `GraphBuilder::new()`. -/
def GraphBuilder.mkNew : GraphBuilder := ⟨ArborGraph.new, []⟩

/-- `GraphBuilder::add_nodes`: insert each node into the graph and record
both its short and qualified name in `name_to_id`. -/
def GraphBuilder.add_nodes (b : GraphBuilder) (ns : List CodeNode) : GraphBuilder :=
  ns.foldl (fun b node =>
    { graph := (b.graph.add_node node).1
      name_to_id :=
        mapInsert (mapInsert b.name_to_id node.name node.id) node.qualified_name node.id })
    b

/-- The edge-collection pass of `GraphBuilder::resolve_edges`: for every
vertex, look each reference name up in `name_to_id` and keep the pair when
the target id differs from the source id. -/
def GraphBuilder.edgesToAdd (b : GraphBuilder) : List (String × String) :=
  b.graph.nodes.foldr
    (fun node acc =>
      node.references.foldr
        (fun reference acc' =>
          match mapGet b.name_to_id reference with
          | some to_id => if node.id ≠ to_id then (node.id, to_id) :: acc' else acc'
          | none => acc')
        acc)
    []

/-- The edge-insertion step of `resolve_edges`: look both ids up and add a
`Calls` edge when both resolve to graph indices. -/
def addResolved (g : ArborGraph) (pair : String × String) : ArborGraph :=
  match g.get_index pair.1, g.get_index pair.2 with
  | some from_idx, some to_idx => g.add_edge from_idx to_idx ⟨.calls⟩
  | _, _ => g

/-- `GraphBuilder::resolve_edges` from `builder.rs`. -/
def GraphBuilder.resolve_edges (b : GraphBuilder) : GraphBuilder :=
  { b with graph := b.edgesToAdd.foldl addResolved b.graph }

/-- `GraphBuilder::build`. -/
def GraphBuilder.build (b : GraphBuilder) : ArborGraph :=
  b.resolve_edges.graph

/-! ### Symbol table (`arbor-graph/src/symbol_table.rs`)

In the Rust code `NodeId` here is the graph index type; we use `Nat`.
File paths are strings; `Path::parent` is modelled on `/`-separated
paths. -/

/-- Split a path on `/` (character-level implementation of
`String.splitOn "/"`). -/
def splitSlash (p : String) : List String :=
  (p.data.foldr
      (fun c acc =>
        if c = '/' then [] :: acc
        else
          match acc with
          | [] => [[c]]
          | h :: t => (c :: h) :: t)
      [[]]).map (fun l => String.mk l)

/-- `str::ends_with` (character-level implementation of
`String.endsWith`). -/
def strEndsWith (s suffixStr : String) : Bool := suffixStr.data.isSuffixOf s.data

/-- `Path::parent` as a string operation: drop the last `/`-separated
component (`some ""` for a bare file name, `none` for the empty path). -/
def parentDir (p : String) : Option String :=
  match (splitSlash p).dropLast with
  | [] => if p = "" then none else some ""
  | parts => some (String.intercalate "/" parts)

/-- `SymbolTable` from `symbol_table.rs`: FQN→id map plus per-file export
lists. -/
structure SymbolTable where
  by_fqn : List (String × Nat)
  exports_by_file : List (String × List String)

/-- `SymbolTable::new()`. -/
def SymbolTable.mkNew : SymbolTable := ⟨[], []⟩

/-- `SymbolTable::insert`: record the FQN mapping and append to the file's
export list. -/
def SymbolTable.insert (t : SymbolTable) (fqn : String) (id : Nat) (file : String) :
    SymbolTable :=
  { by_fqn := mapInsert t.by_fqn fqn id
    exports_by_file :=
      if (t.exports_by_file.find? (fun p => p.1 = file)).isSome then
        t.exports_by_file.map (fun p => if p.1 = file then (p.1, p.2 ++ [fqn]) else p)
      else
        t.exports_by_file ++ [(file, [fqn])] }

/-- The suffix test of `resolve_with_context`: `fqn` ends with `name` and
the character before the suffix (if any) is `.` or `:`. -/
def properSuffix (fqn name : String) : Bool :=
  strEndsWith fqn name &&
    (let prefix_len := fqn.length - name.length
     decide (prefix_len = 0) ||
       decide (fqn.data.get? (prefix_len - 1) = some '.') ||
       decide (fqn.data.get? (prefix_len - 1) = some ':'))

/-- The `same_dir` test of `resolve_with_context`: the first file whose
export list contains `fqn` has the same parent directory as the context
file. -/
def SymbolTable.sameDir (t : SymbolTable) (fqn : String) (context_dir : Option String) : Bool :=
  (((t.exports_by_file.find? (fun p => fqn ∈ p.2)).map
      (fun p => decide (parentDir p.1 = context_dir))).getD false)

/-- `SymbolTable::resolve_with_context` from `symbol_table.rs`:
exact match first, then unambiguous (or same-directory) suffix match. -/
def SymbolTable.resolve_with_context (t : SymbolTable) (name : String)
    (context_file : String) : Option Nat :=
  match mapGet t.by_fqn name with
  | some id => some id
  | none =>
    let context_dir := parentDir context_file
    let candidates : List (String × Nat × Bool) :=
      (t.by_fqn.filter (fun p => properSuffix p.1 name)).map
        (fun p => (p.1, p.2, t.sameDir p.1 context_dir))
    match candidates with
    | [] => none
    | [c] => some c.2.1
    | _ =>
      match candidates.filter (fun c => c.2.2) with
      | [c] => some c.2.1
      | _ => none

/-! ### Context slicing (`arbor-graph/src/slice.rs`) -/

/-- Reason for stopping context collection, from `slice.rs`
(`TruncationReason`). -/
inductive TruncationReason where
  | complete
  | tokenBudget
  | maxDepth
deriving DecidableEq, Repr

/-- A node included in the context slice, from `slice.rs` (`ContextNode`). -/
structure ContextNode where
  node_info : NodeInfo
  token_estimate : Nat
  depth : Nat
  pinned : Bool
deriving DecidableEq, Repr

/-- Result of a context slicing operation, from `slice.rs`
(`ContextSlice`). -/
structure ContextSlice where
  target : NodeInfo
  nodes : List ContextNode
  total_tokens : Nat
  max_tokens : Nat
  truncation_reason : TruncationReason
  query_time_ms : Nat
deriving DecidableEq, Repr

/-- `estimate_tokens` from `slice.rs`: 1 token ≈ 4 characters, with 40
characters charged per line.  `saturating_sub` is Lean's truncated `Nat`
subtraction. -/
def estimate_tokens (node : NodeInfo) : Nat :=
  let base := node.name.length + node.qualified_name.length + node.file.length
  let signature_len := ((node.signature.map (fun s => s.length)).getD 0)
  let lines := node.line_end - node.line_start + 1
  let estimated_chars := base + signature_len + lines * 40
  (estimated_chars + 3) / 4

/-- `usize::MAX` on a 64-bit platform. -/
def usizeMax : Nat := 2 ^ 64 - 1

/-- The `NodeInfo` `slice_context` builds for graph index `i` holding node
`node`: converted record with the stored centrality filled in. -/
def mkInfo (g : ArborGraph) (i : Nat) (node : CodeNode) : NodeInfo :=
  { NodeInfo.ofNode node with centrality := g.centrality i }

/-- State of the BFS loop in `slice_context`: queue of `(node, depth)`
pairs, visited set, accumulated result, running token total and the current
truncation reason. -/
structure SliceState where
  queue : List (Nat × Nat)
  visited : List Nat
  result : List ContextNode
  total : Nat
  reason : TruncationReason

/-- The neighbor pushes of one visit: sources of incoming edges, then
targets of outgoing edges, skipping already-visited nodes (`visited'`
already contains the node being visited). -/
def neighborPushes (g : ArborGraph) (visited' : List Nat) (current depth : Nat) :
    List (Nat × Nat) :=
  g.edges.filterMap
      (fun e => if e.2.1 = current ∧ e.1 ∉ visited' then some (e.1, depth + 1) else none) ++
    g.edges.filterMap
      (fun e => if e.1 = current ∧ e.2.1 ∉ visited' then some (e.2.1, depth + 1) else none)

/-- One iteration of the `while let Some((current, depth)) = queue.pop_front()`
loop of `slice_context`, applied to the dequeued pair `(current, depth)`
and the remaining queue `rest`. -/
def sliceStep (g : ArborGraph) (pins : List Nat) (effTok effMax : Nat)
    (current depth : Nat) (rest : List (Nat × Nat)) (st : SliceState) : SliceState :=
  if current ∈ st.visited then { st with queue := rest }
  else if effMax < depth then { st with queue := rest, reason := .maxDepth }
  else
    let visited' := current :: st.visited
    let is_pinned := current ∈ pins
    let st' :=
      match g.get current with
      | some node =>
        let node_info := mkInfo g current node
        let token_est := estimate_tokens node_info
        if is_pinned ∨ st.total + token_est ≤ effTok then
          { st with
            result := st.result ++ [(⟨node_info, token_est, depth, decide is_pinned⟩ : ContextNode)]
            total := st.total + token_est }
        else { st with reason := .tokenBudget }
      | none => st
    let pushes := if depth < effMax then neighborPushes g visited' current depth else []
    { queue := rest ++ pushes
      visited := visited'
      result := st'.result
      total := st'.total
      reason := st'.reason }

/-- The BFS loop of `slice_context`, with explicit fuel.  The fuel used by
`slice_context` below is proved sufficient for the queue to drain, so this
is an exact model of the Rust `while` loop. -/
def sliceLoop (g : ArborGraph) (pins : List Nat) (effTok effMax : Nat) :
    Nat → SliceState → SliceState
  | 0, st => st
  | fuel + 1, st =>
    match st.queue with
    | [] => st
    | (current, depth) :: rest =>
      sliceLoop g pins effTok effMax fuel (sliceStep g pins effTok effMax current depth rest st)

/-- The comparator of the final `result.sort_by` in `slice_context`:
pinned first, then ascending depth, then descending centrality. -/
def cnOrd (a b : ContextNode) : Ordering :=
  ((compare b.pinned a.pinned).then (compare a.depth b.depth)).then
    (compare b.node_info.centrality a.node_info.centrality)

/-- Stable insertion used to model the stable `sort_by`. -/
def insertCN (x : ContextNode) : List ContextNode → List ContextNode
  | [] => [x]
  | y :: ys => if cnOrd x y = .lt then x :: y :: ys else y :: insertCN x ys

/-- Stable sort by `cnOrd` (models `result.sort_by(...)`). -/
def sortResult (l : List ContextNode) : List ContextNode :=
  l.foldr insertCN []

/-- The empty `NodeInfo` returned for a missing target. -/
def emptyNodeInfo : NodeInfo :=
  { id := ""
    name := ""
    qualified_name := ""
    kind := ""
    file := ""
    line_start := 0
    line_end := 0
    signature := none
    centrality := 0 }

/-- Fuel sufficient for the BFS queue to drain (proved below): one initial
entry plus at most two pushes per edge. -/
def sliceFuel (g : ArborGraph) : Nat := 1 + 2 * g.edges.length

/-- The initial BFS state: the target at depth 0, nothing visited, reason
`Complete`. -/
def sliceInit (target : Nat) : SliceState :=
  { queue := [(target, 0)], visited := [], result := [], total := 0, reason := .complete }

/-- The full BFS run of `slice_context` (the `while` loop, from the initial
state, with the effective bounds substituted for the `0 = unlimited`
conventions). -/
def sliceRun (g : ArborGraph) (target max_tokens max_depth : Nat) (pinned : List Nat) :
    SliceState :=
  sliceLoop g pinned (if max_tokens = 0 then usizeMax else max_tokens)
    (if max_depth = 0 then usizeMax else max_depth) (sliceFuel g) (sliceInit target)

/-- `ArborGraph::slice_context` from `slice.rs`. -/
def ArborGraph.slice_context (g : ArborGraph) (target : Nat) (max_tokens max_depth : Nat)
    (pinned : List Nat) : ContextSlice :=
  match g.get target with
  | none =>
    { target := emptyNodeInfo
      nodes := []
      total_tokens := 0
      max_tokens := max_tokens
      truncation_reason := .complete
      query_time_ms := 0 }
  | some node =>
    let final := sliceRun g target max_tokens max_depth pinned
    { target := mkInfo g target node
      nodes := sortResult final.result
      total_tokens := final.total
      max_tokens := max_tokens
      truncation_reason := final.reason
      query_time_ms := 0 }

/-- Sum of the token estimates of the non-pinned entries of a slice result
(the quantity the slice-budget property bounds). -/
def nonPinnedTokens (ns : List ContextNode) : Nat :=
  ((ns.filter (fun cn => !cn.pinned)).map (fun cn => cn.token_estimate)).sum

/-! ### Confidence scoring (`arbor-graph/src/confidence.rs`) -/

/-- Confidence level, from `confidence.rs` (`ConfidenceLevel`). -/
inductive ConfidenceLevel where
  | high
  | medium
  | low
deriving DecidableEq, Repr

/-- Modelled from the spec §4.7.2: an entry of the `upstream`/`downstream`
lists of an impact result carries its hop distance (the only field
`ConfidenceExplanation::from_analysis` reads; the `ImpactAnalysis` type
itself lives in a file not provided under `src/`). -/
structure ImpactEntry where
  hop_distance : Nat
deriving DecidableEq, Repr

/-- Modelled from the spec §4.7.2: the output of impact analysis, with
`total_affected = |upstream| + |downstream|` produced by the analysis.
Only the fields read by `from_analysis` are modelled. -/
structure ImpactAnalysis where
  upstream : List ImpactEntry
  downstream : List ImpactEntry
  total_affected : Nat
deriving DecidableEq, Repr

/-- Explanation record, from `confidence.rs` (`ConfidenceExplanation`). -/
structure ConfidenceExplanation where
  level : ConfidenceLevel
  reasons : List String
  suggestions : List String
deriving DecidableEq, Repr

/-- `ConfidenceExplanation::from_analysis` from `confidence.rs`, with the
pushed strings accumulated in push order. -/
def ConfidenceExplanation.from_analysis (analysis : ImpactAnalysis) : ConfidenceExplanation :=
  let upstream_count := analysis.upstream.length
  let downstream_count := analysis.downstream.length
  let total := analysis.total_affected
  let base : ConfidenceLevel × List String × List String :=
    if upstream_count = 0 ∧ downstream_count = 0 then
      (.low,
        ["Node appears isolated (no detected connections)"],
        ["Verify if this is called dynamically or from external code"])
    else if upstream_count = 0 then
      let rs := ["Node is an entry point (no internal callers)",
        "Has " ++ toString downstream_count ++ " downstream dependencies"]
      if downstream_count > 5 then
        (.medium, rs, ["Consider impact on downstream dependencies"])
      else (.high, rs, [])
    else if downstream_count = 0 then
      (.high,
        ["Node is a utility (no outgoing dependencies)",
          "Called by " ++ toString upstream_count ++ " upstream nodes"],
        [])
    else
      let r0 := toString upstream_count ++ " callers, " ++
        toString downstream_count ++ " dependencies"
      if total > 20 then
        (.medium, [r0, "Large blast radius detected"],
          ["Consider breaking this change into smaller refactors"])
      else if total > 50 then
        (.low, [r0, "Very large blast radius"],
          ["This change affects a significant portion of the codebase"])
      else (.high, [r0, "Well-connected with manageable impact"], [])
  let structural : List String :=
    if total > 0 then
      let direct_count := (analysis.upstream.filter (fun n => n.hop_distance = 1)).length
      if direct_count > 0 then [toString direct_count ++ " nodes will break immediately"]
      else []
    else []
  { level := base.1
    reasons := base.2.1 ++ structural
    suggestions := base.2.2 ++ ["Tests still recommended for behavioral verification"] }

/-! ### Single-file parse entry point (`arbor-core/src/parser.rs`)

Only the empty-file policy is claim-relevant.  The file system is a
function from paths to optional contents; language detection and the
tree-sitter parse (external black boxes per the spec) are parameters. -/

/-- The error taxonomy of `arbor-core/src/error.rs` (`ParseError`), to the
extent the embedded code produces it. -/
inductive ParseError where
  | ioErr (path : String)
  | unsupportedLanguage (path : String)
  | parserFailure (message : String)
  | emptyFile (path : String)
deriving DecidableEq, Repr

/-- `Path::file_name` as a string operation: the last `/`-separated
component (`none` when there is none or it is `..` / `.`). -/
def fileName (p : String) : Option String :=
  match (splitSlash p).getLast? with
  | some s => if s = "" ∨ s = ".." ∨ s = "." then none else some s
  | none => none

/-- `parse_file` from `parser.rs`.  `fs` models `fs::read_to_string`
(`none` = I/O error), `detect` models `detect_language`, and `parseRest`
models the `parse_source` call on the detected parser. -/
def parse_file {PL : Type} (fs : String → Option String) (detect : String → Option PL)
    (parseRest : PL → String → String → Except ParseError (List CodeNode))
    (path : String) : Except ParseError (List CodeNode) :=
  match fs path with
  | none => .error (.ioErr path)
  | some source =>
    if source = "" then
      if (fileName path).map (fun n => decide (n = "__init__.py")) = some true then
        .ok []
      else .error (.emptyFile path)
    else
      match detect path with
      | none => .error (.unsupportedLanguage path)
      | some pl => parseRest pl source path

/-! ### Graph store (`arbor-graph/src/store.rs`)

The sled database (an external dependency) is modelled as an association
list from keys to typed values.  The string keys `"n:{id}"`, `"f:{path}"`,
`"m:{path}"` and `"meta:version"` live in disjoint namespaces and the
prefixed encodings are injective, so they are modelled by an inductive key
type.  Bincode (de)serialization is modelled as the identity on typed
values, with a type mismatch surfacing as the `Bincode` error, exactly as a
failed `bincode::deserialize` would. -/

/-- A stored value: version string, mtime, per-file id list, or a vertex
record. -/
inductive Val where
  | vStr (s : String)
  | vU64 (n : Nat)
  | vIds (ids : List String)
  | vNode (n : CodeNode)
deriving DecidableEq, Repr

/-- A store key. -/
inductive Key where
  | kMeta
  | kNode (id : String)
  | kFile (path : String)
  | kMtime (path : String)
deriving DecidableEq, Repr

/-- `StoreError` from `store.rs` (payloads omitted). -/
inductive StoreError where
  | sledErr
  | bincodeErr
  | corrupted
  | versionMismatch
deriving DecidableEq, Repr

/-- The database contents: an association list with (maintained) unique
keys. -/
abbrev Db : Type := List (Key × Val)

/-- `Db::get`. -/
def dbGet (db : Db) (k : Key) : Option Val :=
  (db.find? (fun p => p.1 = k)).map Prod.snd

/-- Insert, dropping any previous binding of the key. -/
def dbInsert (db : Db) (k : Key) (v : Val) : Db :=
  (k, v) :: db.filter (fun p => p.1 ≠ k)

/-- Remove a key. -/
def dbRemove (db : Db) (k : Key) : Db :=
  db.filter (fun p => p.1 ≠ k)

/-- One operation of a `sled::Batch`. -/
inductive BatchOp where
  | bput (k : Key) (v : Val)
  | bdel (k : Key)
deriving DecidableEq, Repr

/-- `Db::apply_batch`: apply the operations in order (later operations on
the same key win, as in sled). -/
def applyBatch (db : Db) (ops : List BatchOp) : Db :=
  ops.foldl
    (fun d op =>
      match op with
      | .bput k v => dbInsert d k v
      | .bdel k => dbRemove d k)
    db

/-- Read and decode the id list stored under `f:{file_path}` (`none` if
absent); a value of the wrong shape is a deserialization error. -/
def getFileIds (db : Db) (file_path : String) : Except StoreError (Option (List String)) :=
  match dbGet db (.kFile file_path) with
  | none => .ok none
  | some (.vIds ids) => .ok (some ids)
  | some _ => .error .bincodeErr

/-- `GraphStore::get_mtime` from `store.rs`. -/
def get_mtime (db : Db) (file_path : String) : Except StoreError (Option Nat) :=
  match dbGet db (.kMtime file_path) with
  | none => .ok none
  | some (.vU64 mtime) => .ok (some mtime)
  | some _ => .error .bincodeErr

/-- The node-collection loop of `GraphStore::get_file_nodes`: ids whose
`n:{id}` record is absent are skipped; a wrongly-typed record is a
deserialization error. -/
def readNodesOf (db : Db) : List String → Except StoreError (List CodeNode)
  | [] => .ok []
  | id :: ids =>
    match dbGet db (.kNode id) with
    | none => readNodesOf db ids
    | some (.vNode n) => (readNodesOf db ids).map (fun ns => n :: ns)
    | some _ => .error .bincodeErr

/-- `GraphStore::get_file_nodes` from `store.rs`. -/
def get_file_nodes (db : Db) (file_path : String) :
    Except StoreError (Option (List CodeNode)) :=
  match dbGet db (.kFile file_path) with
  | none => .ok none
  | some (.vIds ids) => (readNodesOf db ids).map some
  | some _ => .error .bincodeErr

/-- The batch `GraphStore::update_file` commits: delete the file's
previous node records, insert the new ones, overwrite the file index and
the mtime. -/
def updateBatch (file_path : String) (nodes : List CodeNode) (mtime : Nat)
    (old_ids : List String) : List BatchOp :=
  old_ids.map (fun id => BatchOp.bdel (.kNode id)) ++
    nodes.map (fun n => BatchOp.bput (.kNode n.id) (.vNode n)) ++
    [BatchOp.bput (.kFile file_path) (.vIds (nodes.map (fun n => n.id))),
      BatchOp.bput (.kMtime file_path) (.vU64 mtime)]

/-- `GraphStore::update_file` from `store.rs`: one committed batch. -/
def update_file (db : Db) (file_path : String) (nodes : List CodeNode) (mtime : Nat) :
    Except StoreError Db :=
  (getFileIds db file_path).map (fun oldIdsOpt =>
    applyBatch db (updateBatch file_path nodes mtime (oldIdsOpt.getD [])))

/-- The batch `GraphStore::remove_file` commits: delete the file's node
records, its index and its mtime. -/
def removeBatch (file_path : String) (old_ids : List String) : List BatchOp :=
  old_ids.map (fun id => BatchOp.bdel (.kNode id)) ++
    [BatchOp.bdel (.kFile file_path), BatchOp.bdel (.kMtime file_path)]

/-- `GraphStore::remove_file` from `store.rs`. -/
def remove_file (db : Db) (file_path : String) : Except StoreError Db :=
  (getFileIds db file_path).map (fun oldIdsOpt =>
    applyBatch db (removeBatch file_path (oldIdsOpt.getD [])))

/-- The `scan_prefix(b"n:")` pass of `GraphStore::load_graph`: decode every
stored node record (sled iterates keys in key order; the claims below are
insensitive to enumeration order, so the model uses entry order). -/
def scanNodes : Db → Except StoreError (List CodeNode)
  | [] => .ok []
  | (Key.kNode _, Val.vNode n) :: rest => (scanNodes rest).map (fun ns => n :: ns)
  | (Key.kNode _, _) :: _ => .error .bincodeErr
  | _ :: rest => scanNodes rest

/-- `GraphStore::load_graph` from `store.rs`: scan all node records, feed
the builder, and build (which resolves edges). -/
def load_graph (db : Db) : Except StoreError ArborGraph :=
  (scanNodes db).map (fun nodes =>
    if nodes.isEmpty then ArborGraph.new
    else (GraphBuilder.mkNew.add_nodes nodes).build)

/-! ### Spec-side definitions and reachability

`specEstimateTokens` renders the spec's token formula verbatim (§4.7.4),
for comparison with `estimate_tokens`.  `PathTo` is hop-bounded
connectivity along edges in either direction — exactly the neighbor
relation the slice BFS explores. -/

/-- The token estimator as the spec states it:
`chars = |name| + |qualified_name| + |file| + |signature| +
40 · max(1, line_end − line_start + 1)`, `tokens = ⌈chars / 4⌉`
(signature contributes 0 when absent; the line difference is over ℤ). -/
def specEstimateTokens (n : NodeInfo) : Nat :=
  let sigLen : ℤ := (n.signature.map (fun s => s.length)).getD 0
  let chars : ℤ := (n.name.length : ℤ) + n.qualified_name.length + n.file.length +
    sigLen + 40 * max 1 ((n.line_end : ℤ) - n.line_start + 1)
  (⌈(chars : ℚ) / 4⌉).toNat

/-- `v` is a BFS neighbor of `u`: some edge joins them in either
direction (incoming edges contribute their source, outgoing their
target). -/
def adjacent (g : ArborGraph) (u v : Nat) : Prop :=
  ∃ e ∈ g.edges, (e.1 = u ∧ e.2.1 = v) ∨ (e.1 = v ∧ e.2.1 = u)

/-- Hop-bounded connectivity: `PathTo g u v d` holds when some chain of at
most `d` neighbor steps joins `u` to `v`. -/
inductive PathTo (g : ArborGraph) : Nat → Nat → Nat → Prop where
  | refl (u d : Nat) : PathTo g u u d
  | step {u w v d : Nat} : adjacent g u w → PathTo g w v d → PathTo g u v (d + 1)

/-- `v` is a vertex of the graph reachable from vertex `u` within `d`
hops. -/
def ReachWithin (g : ArborGraph) (u v d : Nat) : Prop :=
  u < g.nodes.length ∧ v < g.nodes.length ∧ PathTo g u v d

/-- A hop-bounded chain from `u` to `v` none of whose nodes is in `vis`
(the "frontier cut" paths of the BFS completeness invariant). -/
inductive FreshPath (g : ArborGraph) (vis : List Nat) : Nat → Nat → Nat → Prop where
  | refl (u d : Nat) : u ∉ vis → FreshPath g vis u u d
  | step {u w v d : Nat} : u ∉ vis → adjacent g u w → FreshPath g vis w v d →
      FreshPath g vis u v (d + 1)

/-- Depths of the queued entries. -/
def queueDepths (q : List (Nat × Nat)) : List Nat := q.map Prod.snd

/-- BFS queue shape invariant: depths are nondecreasing and any two differ
by at most one. -/
def QueueOk (q : List (Nat × Nat)) : Prop :=
  List.Pairwise (· ≤ ·) (queueDepths q) ∧
    ∀ d₁ ∈ queueDepths q, ∀ d₂ ∈ queueDepths q, d₂ ≤ d₁ + 1

/-- Completeness invariant: every vertex connected to the target within the
depth bound is either already visited or served by a queued entry from
which an entirely-unvisited chain still leads to it within the remaining
depth budget. -/
def CoverInv (g : ArborGraph) (target effMax : Nat) (st : SliceState) : Prop :=
  ∀ v d, PathTo g target v d → d ≤ effMax →
    v ∈ st.visited ∨
      ∃ q dq j, (q, dq) ∈ st.queue ∧ FreshPath g st.visited q v j ∧ dq + j ≤ effMax

/-- Result invariant: every visited pinned vertex that exists in the graph
has been pushed to the result with its info and the pinned flag. -/
def PinInv (g : ArborGraph) (pins : List Nat) (st : SliceState) : Prop :=
  ∀ v ∈ st.visited, v ∈ pins → ∀ node, g.get v = some node →
    ∃ cn ∈ st.result, cn.node_info = mkInfo g v node ∧ cn.pinned = true

/-- Budget invariant: the non-pinned token sum is bounded by the running
total and by the effective budget. -/
def BudgetInv (effTok : Nat) (st : SliceState) : Prop :=
  nonPinnedTokens st.result ≤ st.total ∧ nonPinnedTokens st.result ≤ effTok

/-- Per-edge unvisited-endpoint weight, the potential that pays for queue
pushes. -/
def edgeWeight (vis : List Nat) (e : Nat × Nat × EdgeKind) : Nat :=
  (if e.1 ∈ vis then 0 else 1) + (if e.2.1 ∈ vis then 0 else 1)

/-- Loop potential: queue length plus total unvisited-endpoint weight;
strictly decreases at every iteration, so it bounds the iteration count. -/
def phi (g : ArborGraph) (st : SliceState) : Nat :=
  st.queue.length + (g.edges.map (edgeWeight st.visited)).sum

/-! ### Store well-formedness

The invariants a store reached through the `GraphStore` API satisfies;
hypotheses of the round-trip claim. -/

/-- Keys are unique (sled is a map; the model maintains this). -/
def NoDupKeys (db : Db) : Prop := (db.map Prod.fst).Nodup

/-- Every `n:{id}` value is a vertex record whose `id` field matches the
key. -/
def NodeKeysTyped (db : Db) : Prop :=
  ∀ id v, (Key.kNode id, v) ∈ db → ∃ n, v = Val.vNode n ∧ n.id = id

/-- Every `f:{path}` value is an id list. -/
def FileKeysTyped (db : Db) : Prop :=
  ∀ p v, (Key.kFile p, v) ∈ db → ∃ ids, v = Val.vIds ids

/-- Every stored vertex record claiming to originate from file `F` is
listed in `F`'s id index. -/
def OwnedBy (db : Db) (F : String) : Prop :=
  ∀ id n, (Key.kNode id, Val.vNode n) ∈ db → n.file = F →
    ∃ ids, dbGet db (.kFile F) = some (.vIds ids) ∧ id ∈ ids

/-- The net effect of a batch on one key: `some (some v)` if the last
relevant operation is a put, `some none` if it is a delete, `none` if the
batch never touches the key (later operations take precedence). -/
def lastWrite : List BatchOp → Key → Option (Option Val)
  | [], _ => none
  | op :: rest, k =>
    match lastWrite rest k with
    | some r => some r
    | none =>
      match op with
      | .bput k' v => if k' = k then some (some v) else none
      | .bdel k' => if k' = k then some none else none

/-! ### Concrete inputs used by the counterexample evaluations and
witnesses -/

/-- A bare function node as the slice tests build them
(`CodeNode::new(name, name, Function, "test.rs")`), with an explicit
short id standing in for the hash (the builder and slicer never inspect
id contents). -/
def testNode (id name : String) : CodeNode :=
  { id := id
    name := name
    qualified_name := name
    kind := .kFunction
    file := "test.rs"
    line_start := 0
    line_end := 0
    column := 0
    signature := none
    visibility := .vPrivate
    is_async := false
    is_static := false
    is_exported := false
    docstring := none
    byte_start := 0
    byte_end := 0
    references := [] }

/-- Chain graph `a → b → c` (the spec's slice-truncation scenario). -/
def chainGraph : ArborGraph :=
  { nodes := [testNode "ida" "a", testNode "idb" "b", testNode "idc" "c"]
    edges := [(0, 1, .calls), (1, 2, .calls)]
    centralities := [] }

/-- `a/m.rs` defines `helper` (locality scenario, first definition). -/
def helperA : CodeNode :=
  { testNode "id_helper_a" "helper" with qualified_name := "a.helper", file := "a/m.rs" }

/-- `b/m.rs` defines `helper` (locality scenario, second definition). -/
def helperB : CodeNode :=
  { testNode "id_helper_b" "helper" with qualified_name := "b.helper", file := "b/m.rs" }

/-- `c/caller.rs` defines `caller`, whose body refers to `helper`
(locality scenario, the caller in an unrelated third directory). -/
def callerC : CodeNode :=
  { testNode "id_caller_c" "caller" with
    qualified_name := "caller"
    file := "c/caller.rs"
    references := ["helper"] }

/-- The symbol table of the locality scenario, as §4.4 ingest would
populate it with the two qualified helper names. -/
def localityTable : SymbolTable :=
  (SymbolTable.mkNew.insert "a.helper" 0 "a/m.rs").insert "b.helper" 1 "b/m.rs"

/-- An impact analysis with 1 caller, 51 dependencies, 52 affected in
total (the `otherwise` row of the confidence table, blast radius > 50). -/
def bigAnalysis : ImpactAnalysis :=
  { upstream := [⟨1⟩]
    downstream := List.replicate 51 ⟨1⟩
    total_affected := 52 }

/-- A caller node whose references include itself and a callee (exercises
the self-edge drop of `resolve_edges`). -/
def selfRefNodes : List CodeNode :=
  [{ testNode "idp" "p" with references := ["p", "q"] }, testNode "idq" "q"]

/-- A vertex that originates from file `a.rs` (store round-trip input). -/
def fileNodeA : CodeNode :=
  { testNode "idA" "fa" with qualified_name := "mod.fa", file := "a.rs" }

/-! ## Theorems -/

/-- Ceiling division by four, in the shape the spec's token formula
produces. -/
theorem ceil_div_four (C : Nat) : (⌈((C : ℚ)) / 4⌉).toNat = (C + 3) / 4 := by
  set D := (C + 3) / 4 with hD
  have h1 : (C : ℚ) ≤ 4 * D := by exact_mod_cast Nat.cast_le.mpr (by omega : C ≤ 4 * D)
  have h2 : (4 : ℚ) * D < C + 4 := by exact_mod_cast Nat.cast_lt.mpr (by omega : 4 * D < C + 4)
  have hceil : ⌈((C : ℚ)) / 4⌉ = (D : ℤ) := by
    rw [Int.ceil_eq_iff]
    refine ⟨?_, ?_⟩
    · rw [lt_div_iff₀ (by norm_num : (0:ℚ) < 4)]
      push_cast
      linarith
    · rw [div_le_iff₀ (by norm_num : (0:ℚ) < 4)]
      push_cast
      linarith
  rw [hceil, Int.toNat_natCast]

/-- C9.  Token estimation is exactly the spec formula: for every vertex the
estimate equals `⌈chars / 4⌉` with
`chars = |name| + |qualified_name| + |file| + |signature| +
40 · max(1, line_end − line_start + 1)` (0 for an absent signature). -/
theorem claim_C9 (n : NodeInfo) : estimate_tokens n = specEstimateTokens n := by
  unfold estimate_tokens specEstimateTokens
  have hmax : max 1 ((n.line_end : ℤ) - (n.line_start : ℤ) + 1) =
      ((n.line_end - n.line_start + 1 : ℕ) : ℤ) := by omega
  cases hs : n.signature with
  | none =>
    simp only [hs, Option.map_none', Option.getD_none]
    rw [hmax]
    have hchars : ((n.name.length : ℤ) + n.qualified_name.length + n.file.length + 0 +
        40 * ((n.line_end - n.line_start + 1 : ℕ) : ℤ)) =
        ((n.name.length + n.qualified_name.length + n.file.length +
          (n.line_end - n.line_start + 1) * 40 : ℕ) : ℤ) := by
      push_cast
      ring
    rw [hchars]
    rw [show (((n.name.length + n.qualified_name.length + n.file.length +
        (n.line_end - n.line_start + 1) * 40 : ℕ) : ℤ) : ℚ) =
        ((n.name.length + n.qualified_name.length + n.file.length +
          (n.line_end - n.line_start + 1) * 40 : ℕ) : ℚ) by push_cast; ring]
    rw [ceil_div_four]
    omega
  | some s =>
    simp only [hs, Option.map_some', Option.getD_some]
    rw [hmax]
    have hchars : ((n.name.length : ℤ) + n.qualified_name.length + n.file.length +
        (s.length : ℤ) + 40 * ((n.line_end - n.line_start + 1 : ℕ) : ℤ)) =
        ((n.name.length + n.qualified_name.length + n.file.length + s.length +
          (n.line_end - n.line_start + 1) * 40 : ℕ) : ℤ) := by
      push_cast
      ring
    rw [hchars]
    rw [show (((n.name.length + n.qualified_name.length + n.file.length + s.length +
        (n.line_end - n.line_start + 1) * 40 : ℕ) : ℤ) : ℚ) =
        ((n.name.length + n.qualified_name.length + n.file.length + s.length +
          (n.line_end - n.line_start + 1) * 40 : ℕ) : ℚ) by push_cast; ring]
    rw [ceil_div_four]

/-- C10.  `slice_context` is total on missing targets: when the target is
not in the graph it returns the empty slice with an all-empty target
`NodeInfo`, no nodes, zero tokens and reason `Complete`, instead of an
error. -/
theorem claim_C10 (g : ArborGraph) (target max_tokens max_depth : Nat) (pins : List Nat)
    (h : g.get target = none) :
    g.slice_context target max_tokens max_depth pins =
      { target := emptyNodeInfo
        nodes := []
        total_tokens := 0
        max_tokens := max_tokens
        truncation_reason := .complete
        query_time_ms := 0 } := by
  unfold ArborGraph.slice_context
  rw [h]

/-- Witness for C10 at a concrete input: the empty graph has no node `0`,
and slicing it from `0` yields the empty slice. -/
theorem claim_C10_witness :
    ArborGraph.new.get 0 = none ∧
      ArborGraph.new.slice_context 0 1000 2 [] =
        { target := emptyNodeInfo
          nodes := []
          total_tokens := 0
          max_tokens := 1000
          truncation_reason := .complete
          query_time_ms := 0 } :=
  ⟨rfl, claim_C10 ArborGraph.new 0 1000 2 [] rfl⟩

/-- C2 (code bug, evaluation at the failing input).  The claim says the
`otherwise` row yields `Low` for `total_affected > 50`, but the code tests
`total > 20` first, so the `total > 50` branch is unreachable: an analysis
with 1 caller, 51 dependencies and 52 total gets `Medium`. -/
theorem claim_C2 :
    0 < bigAnalysis.upstream.length ∧ 0 < bigAnalysis.downstream.length ∧
      50 < bigAnalysis.total_affected ∧
      (ConfidenceExplanation.from_analysis bigAnalysis).level = .medium ∧
      (ConfidenceExplanation.from_analysis bigAnalysis).level ≠ .low := by
  refine ⟨by decide, by decide, by decide, ?_, ?_⟩ <;> decide

/-- A hop-bounded chain of length zero joins a node only to itself. -/
theorem pathTo_zero {g : ArborGraph} {u v : Nat} (h : PathTo g u v 0) : u = v := by
  cases h
  rfl

/-- C3 (code bug, evaluation at the failing input).  On the chain
`a → b → c`, slicing from `a` with a generous budget and `max_depth = 1`
hits the depth boundary (`c` is connected within 2 hops but not within 1),
yet the returned reason is `Complete`: the `depth > effective_max` branch
that would set `MaxDepth` is unreachable, because neighbors are only
enqueued while `depth < effective_max`. -/
theorem claim_C3 :
    (chainGraph.slice_context 0 10000 1 []).truncation_reason = .complete ∧
      (chainGraph.slice_context 0 10000 1 []).truncation_reason ≠ .maxDepth ∧
      ReachWithin chainGraph 0 2 2 ∧ ¬ ReachWithin chainGraph 0 2 1 := by
  have a01 : adjacent chainGraph 0 1 := ⟨(0, 1, .calls), by decide, Or.inl ⟨rfl, rfl⟩⟩
  have a12 : adjacent chainGraph 1 2 := ⟨(1, 2, .calls), by decide, Or.inl ⟨rfl, rfl⟩⟩
  refine ⟨by decide, by decide, ⟨by decide, by decide, ?_⟩, ?_⟩
  · exact PathTo.step a01 (PathTo.step a12 (PathTo.refl 2 0))
  · rintro ⟨-, -, hp⟩
    cases hp with
    | step hadj htail =>
      have hw := pathTo_zero htail
      subst hw
      obtain ⟨e, he, horient⟩ := hadj
      simp only [chainGraph, List.mem_cons, List.not_mem_nil, or_false] at he
      rcases he with he | he <;> subst he <;>
        rcases horient with ⟨h1, h2⟩ | ⟨h1, h2⟩ <;> simp_all

/-- C1 (code bug, evaluation at the failing input).  With `helper` defined
in both `a/m.rs` and `b/m.rs` and a caller in the unrelated directory
`c/`, `GraphBuilder::build` produces a `Calls` edge from the caller to the
`b/m.rs` helper (its `name_to_id` map keeps whichever definition was
inserted last), although `resolve_with_context("helper", "c/caller.rs")` —
which the claim says the builder invokes — returns `None` (ambiguous), and
from `a/caller.rs` it returns the same-directory `a/m.rs` definition. -/
theorem claim_C1 :
    (GraphBuilder.mkNew.add_nodes [helperA, helperB, callerC]).build.edges =
        [(2, 1, .calls)] ∧
      (GraphBuilder.mkNew.add_nodes [helperA, helperB, callerC]).build.get 2 =
        some callerC ∧
      (GraphBuilder.mkNew.add_nodes [helperA, helperB, callerC]).build.get 1 =
        some helperB ∧
      localityTable.resolve_with_context "helper" "c/caller.rs" = none ∧
      localityTable.resolve_with_context "helper" "a/caller.rs" = some 0 := by
  refine ⟨?_, ?_, ?_, ?_, ?_⟩ <;> decide

/-- C8.  Empty-file policy of `parse_file`: on a readable empty file it
returns the empty vertex list when the file name is the module marker
`__init__.py`, and the `EmptyFile` error otherwise (and, being a total
function of its inputs, it never panics). -/
theorem claim_C8 {PL : Type} (fs : String → Option String) (detect : String → Option PL)
    (parseRest : PL → String → String → Except ParseError (List CodeNode))
    (path : String) (h : fs path = some "") :
    (fileName path = some "__init__.py" →
        parse_file fs detect parseRest path = .ok []) ∧
      (fileName path ≠ some "__init__.py" →
        parse_file fs detect parseRest path = .error (.emptyFile path)) := by
  constructor
  · intro hf
    simp [parse_file, h, hf]
  · intro hf
    rcases hfn : fileName path with _ | s
    · simp [parse_file, h, hfn]
    · rw [hfn] at hf
      have hs : ¬ (s = "__init__.py") := fun e => hf (by rw [e])
      simp [parse_file, h, hfn, hs]

/-- Witness for C8 at concrete inputs: an empty `pkg/__init__.py` parses to
no vertices, an empty `pkg/empty.rs` surfaces `EmptyFile`. -/
theorem claim_C8_witness :
    (fun _ : String => some "") "pkg/__init__.py" = some "" ∧
      parse_file (fun _ => some "") (fun _ => (none : Option Unit))
        (fun _ _ _ => .error (.parserFailure "")) "pkg/__init__.py" = .ok [] ∧
      parse_file (fun _ => some "") (fun _ => (none : Option Unit))
        (fun _ _ _ => .error (.parserFailure "")) "pkg/empty.rs" =
        .error (.emptyFile "pkg/empty.rs") :=
  ⟨rfl,
    (claim_C8 (fun _ => some "") (fun _ => (none : Option Unit))
      (fun _ _ _ => .error (.parserFailure "")) "pkg/__init__.py" rfl).1 (by decide),
    (claim_C8 (fun _ => some "") (fun _ => (none : Option Unit))
      (fun _ _ _ => .error (.parserFailure "")) "pkg/empty.rs" rfl).2 (by decide)⟩

/-- 64-bit truncation really is below `2 ^ 64`. -/
theorem m64_lt (x : Nat) : m64 x < 2 ^ 64 :=
  Nat.mod_lt _ (by norm_num)

/-- The rendered digit is always one of the sixteen hex characters. -/
theorem hexChar_mem (n : Nat) : hexChar n ∈ hexAlphabet := by
  unfold hexChar
  by_cases h : n < hexAlphabet.length
  · rw [List.getD_eq_getElem _ _ h]
    apply List.getElem_mem
  · rw [List.getD_eq_default _ _ (by omega)]
    decide

/-- `{:x}` prints at most `k` digits for values below `16 ^ k`. -/
theorem hexDigits_length_le (k : Nat) :
    ∀ n, n < 16 ^ (k + 1) → (hexDigits n).length ≤ k + 1 := by
  induction k with
  | zero =>
    intro n hn
    have h16 : n < 16 := by simpa using hn
    rw [hexDigits]
    simp [h16]
  | succ k ih =>
    intro n hn
    rw [hexDigits]
    by_cases h : n < 16
    · simp [h]
    · simp only [h, dite_false]
      have hdiv : n / 16 < 16 ^ (k + 1) := by
        rw [Nat.div_lt_iff_lt_mul (by norm_num)]
        calc n < 16 ^ (k + 2) := hn
        _ = 16 ^ (k + 1) * 16 := by ring
      have := ih (n / 16) hdiv
      simp only [List.length_append, List.length_singleton]
      omega

/-- Every character `{:x}` prints is a hex character. -/
theorem hexDigits_mem (n : Nat) : ∀ c ∈ hexDigits n, c ∈ hexAlphabet := by
  induction n using Nat.strong_induction_on with
  | _ n ih =>
    rw [hexDigits]
    by_cases h : n < 16
    · simp only [h, dite_true, List.mem_singleton]
      rintro c rfl
      exact hexChar_mem n
    · simp only [h, dite_false, List.mem_append, List.mem_singleton]
      intro c hc
      rcases hc with hc | rfl
      · exact ih (n / 16) (Nat.div_lt_self (by omega) (by omega)) c hc
      · exact hexChar_mem _

/-- `{:016x}` of a 64-bit value has exactly 16 characters. -/
theorem hexPad16_length (h : Nat) (hh : h < 2 ^ 64) : (hexPad16 h).length = 16 := by
  unfold hexPad16
  have h16 : h < 16 ^ 16 := by
    calc h < 2 ^ 64 := hh
    _ = 16 ^ 16 := by norm_num
  have hlen : (hexDigits h).length ≤ 16 := hexDigits_length_le 15 h h16
  simp only [String.length_mk, List.length_append, List.length_replicate]
  omega

/-- Every character of `{:016x}` output is a hex character. -/
theorem hexPad16_mem (h : Nat) : ∀ c ∈ (hexPad16 h).data, c ∈ hexAlphabet := by
  unfold hexPad16
  intro c hc
  have hc' : c ∈ List.replicate (16 - (hexDigits h).length) '0' ++ hexDigits h := hc
  rcases List.mem_append.mp hc' with hc | hc
  · rw [List.eq_of_mem_replicate hc]
    decide
  · exact hexDigits_mem h c hc

/-- C6.  Vertex identity is deterministic and stably rendered: equal
`(file, qualified_name, kind)` triples produce equal ids, and every id is
a string of exactly 16 hexadecimal characters (the zero-padded rendering
of a 64-bit hash). -/
theorem claim_C6 (f₁ q₁ : String) (k₁ : NodeKind) (f₂ q₂ : String) (k₂ : NodeKind)
    (hf : f₁ = f₂) (hq : q₁ = q₂) (hk : k₁ = k₂) :
    computeId f₁ q₁ k₁ = computeId f₂ q₂ k₂ ∧
      (computeId f₁ q₁ k₁).length = 16 ∧
      ∀ c ∈ (computeId f₁ q₁ k₁).data, c ∈ hexAlphabet := by
  subst hf hq hk
  refine ⟨rfl, ?_, ?_⟩
  · exact hexPad16_length _ (m64_lt _)
  · exact hexPad16_mem _

/-- Witness for C6 at a concrete triple. -/
theorem claim_C6_witness :
    computeId "test.rs" "mod.foo" .kFunction = computeId "test.rs" "mod.foo" .kFunction ∧
      (computeId "test.rs" "mod.foo" .kFunction).length = 16 ∧
      ∀ c ∈ (computeId "test.rs" "mod.foo" .kFunction).data, c ∈ hexAlphabet :=
  claim_C6 "test.rs" "mod.foo" .kFunction "test.rs" "mod.foo" .kFunction rfl rfl rfl

/-- A successful `findIdx?` points at an element satisfying the
predicate. -/
theorem findIdx?_found {α : Type} (p : α → Bool) (l : List α) (i : Nat)
    (h : l.findIdx? p = some i) : ∃ a, l.get? i = some a ∧ p a = true := by
  induction l generalizing i with
  | nil => simp [List.findIdx?] at h
  | cons x xs ih =>
    rw [List.findIdx?_cons] at h
    by_cases hp : p x
    · simp [hp] at h
      subst h
      exact ⟨x, rfl, hp⟩
    · simp [hp] at h
      obtain ⟨j, hj, rfl⟩ := h
      obtain ⟨a, ha, hpa⟩ := ih j hj
      exact ⟨a, by simpa using ha, hpa⟩

/-- `add_node` never touches the edge list. -/
theorem add_node_edges (g : ArborGraph) (n : CodeNode) :
    (g.add_node n).1.edges = g.edges := by
  unfold ArborGraph.add_node
  rcases h : g.nodes.findIdx? (fun m => m.id = n.id) with _ | i <;> simp [h]

/-- `add_nodes` never touches the edge list. -/
theorem add_nodes_edges (ns : List CodeNode) :
    ∀ b : GraphBuilder, (b.add_nodes ns).graph.edges = b.graph.edges := by
  induction ns with
  | nil => intro b; rfl
  | cons n ns ih =>
    intro b
    unfold GraphBuilder.add_nodes at ih ⊢
    rw [List.foldl_cons, ih]
    exact add_node_edges b.graph n

/-- The per-pair edge-insertion step never touches the node list. -/
theorem addResolved_nodes (g : ArborGraph) (pair : String × String) :
    (addResolved g pair).nodes = g.nodes := by
  unfold addResolved
  rcases h1 : g.get_index pair.1 with _ | i <;> rcases h2 : g.get_index pair.2 with _ | j <;>
    simp [h1, h2, ArborGraph.add_edge]

/-- The resolve fold never touches the node list. -/
theorem foldl_addResolved_nodes (pairs : List (String × String)) :
    ∀ g : ArborGraph, (pairs.foldl addResolved g).nodes = g.nodes := by
  induction pairs with
  | nil => intro g; rfl
  | cons p ps ih =>
    intro g
    rw [List.foldl_cons, ih, addResolved_nodes]

/-- Every edge present after the resolve fold is either an original edge
or a `Calls` edge between the graph indices of some processed pair. -/
theorem foldl_addResolved_mem (pairs : List (String × String)) :
    ∀ (g : ArborGraph) (e : Nat × Nat × EdgeKind),
      e ∈ (pairs.foldl addResolved g).edges →
      e ∈ g.edges ∨ ∃ pr ∈ pairs, g.get_index pr.1 = some e.1 ∧
        g.get_index pr.2 = some e.2.1 ∧ e.2.2 = .calls := by
  induction pairs with
  | nil => intro g e he; exact Or.inl he
  | cons p ps ih =>
    intro g e he
    rw [List.foldl_cons] at he
    have hnodes : (addResolved g p).nodes = g.nodes := addResolved_nodes g p
    have hgi : ∀ s, (addResolved g p).get_index s = g.get_index s := by
      intro s
      unfold ArborGraph.get_index
      rw [hnodes]
    rcases ih (addResolved g p) e he with he' | ⟨pr, hpr, h1, h2, h3⟩
    · unfold addResolved at he'
      rcases hi : g.get_index p.1 with _ | i <;> rcases hj : g.get_index p.2 with _ | j <;>
        rw [hi, hj] at he' <;>
        simp only [ArborGraph.add_edge, List.mem_append, List.mem_singleton] at he'
      case some.some =>
        rcases he' with he' | rfl
        · exact Or.inl he'
        · exact Or.inr ⟨p, List.mem_cons_self _ _, hi, hj, rfl⟩
      all_goals exact Or.inl he'
    · rw [hgi] at h1 h2
      exact Or.inr ⟨pr, List.mem_cons_of_mem _ hpr, h1, h2, h3⟩

/-- Every pair produced by the reference-collection pass has distinct
source and target ids (the `from_id != to_id` filter). -/
theorem refs_fold_ne (nid : String) (m : List (String × String)) :
    ∀ (refs : List String) (acc : List (String × String)),
      (∀ pr ∈ acc, pr.1 ≠ pr.2) →
      ∀ pr ∈ refs.foldr
          (fun reference acc' =>
            match mapGet m reference with
            | some to_id => if nid ≠ to_id then (nid, to_id) :: acc' else acc'
            | none => acc')
          acc,
        pr.1 ≠ pr.2 := by
  intro refs
  induction refs with
  | nil => intro acc hacc pr hpr; exact hacc pr hpr
  | cons r rs ih =>
    intro acc hacc pr hpr
    rw [List.foldr_cons] at hpr
    rcases hm : mapGet m r with _ | to_id
    · rw [hm] at hpr
      simp only [] at hpr
      exact ih acc hacc pr hpr
    · rw [hm] at hpr
      simp only [] at hpr
      by_cases hne : nid ≠ to_id
      · rw [if_pos hne] at hpr
        rcases List.mem_cons.mp hpr with rfl | hpr'
        · exact hne
        · exact ih acc hacc pr hpr'
      · rw [if_neg hne] at hpr
        exact ih acc hacc pr hpr

/-- Every pair in `edgesToAdd` has distinct ids. -/
theorem edgesToAdd_ne (b : GraphBuilder) : ∀ pr ∈ b.edgesToAdd, pr.1 ≠ pr.2 := by
  unfold GraphBuilder.edgesToAdd
  generalize b.graph.nodes = ns
  induction ns with
  | nil => intro pr hpr; simp at hpr
  | cons n ns ih =>
    intro pr hpr
    rw [List.foldr_cons] at hpr
    exact refs_fold_ne n.id b.name_to_id n.references _ ih pr hpr

/-- C7.  No self-edges: every edge the builder produces joins two existing
vertices with distinct ids (a reference resolving back to its own vertex id
never yields an edge). -/
theorem claim_C7 (ns : List CodeNode) (e : Nat × Nat × EdgeKind)
    (he : e ∈ (GraphBuilder.mkNew.add_nodes ns).build.edges) :
    ∃ nu nv, (GraphBuilder.mkNew.add_nodes ns).build.get e.1 = some nu ∧
      (GraphBuilder.mkNew.add_nodes ns).build.get e.2.1 = some nv ∧
      nu.id ≠ nv.id := by
  unfold GraphBuilder.build GraphBuilder.resolve_edges at he ⊢
  rcases foldl_addResolved_mem _ _ e he with hbase | ⟨pr, hpr, h1, h2, h3⟩
  · rw [add_nodes_edges] at hbase
    simp [GraphBuilder.mkNew, ArborGraph.new] at hbase
  · have hne := edgesToAdd_ne _ pr hpr
    unfold ArborGraph.get_index at h1 h2
    obtain ⟨nu, hnu, hpu⟩ := findIdx?_found _ _ _ h1
    obtain ⟨nv, hnv, hpv⟩ := findIdx?_found _ _ _ h2
    refine ⟨nu, nv, ?_, ?_, ?_⟩
    · show (List.foldl addResolved _ _).nodes.get? e.1 = some nu
      rw [foldl_addResolved_nodes]
      exact hnu
    · show (List.foldl addResolved _ _).nodes.get? e.2.1 = some nv
      rw [foldl_addResolved_nodes]
      exact hnv
    · have hu : nu.id = pr.1 := of_decide_eq_true hpu
      have hv : nv.id = pr.2 := of_decide_eq_true hpv
      rw [hu, hv]
      exact hne

/-- Witness for C7 at a concrete input: a caller that references both
itself and a callee produces exactly the caller→callee edge, whose
endpoints have distinct ids. -/
theorem claim_C7_witness :
    ((0, 1, EdgeKind.calls) ∈ (GraphBuilder.mkNew.add_nodes selfRefNodes).build.edges) ∧
      ∃ nu nv,
        (GraphBuilder.mkNew.add_nodes selfRefNodes).build.get (0, 1, EdgeKind.calls).1 =
          some nu ∧
        (GraphBuilder.mkNew.add_nodes selfRefNodes).build.get (0, 1, EdgeKind.calls).2.1 =
          some nv ∧ nu.id ≠ nv.id :=
  ⟨by decide, claim_C7 selfRefNodes (0, 1, .calls) (by decide)⟩

/-! ### BFS loop invariants (claim C4) -/

/-- The queue after one BFS iteration: the remaining queue, extended by the
neighbor pushes when the node is newly visited below the depth bound. -/
theorem sliceStep_queue (g : ArborGraph) (pins : List Nat) (effTok effMax c d : Nat)
    (rest : List (Nat × Nat)) (st : SliceState) :
    (sliceStep g pins effTok effMax c d rest st).queue =
      if c ∈ st.visited ∨ effMax < d then rest
      else rest ++ (if d < effMax then neighborPushes g (c :: st.visited) c d else []) := by
  unfold sliceStep
  by_cases hv : c ∈ st.visited
  · simp [hv]
  · by_cases hd : effMax < d
    · simp [hv, hd]
    · simp [hv, hd]

/-- The visited set after one BFS iteration. -/
theorem sliceStep_visited (g : ArborGraph) (pins : List Nat) (effTok effMax c d : Nat)
    (rest : List (Nat × Nat)) (st : SliceState) :
    (sliceStep g pins effTok effMax c d rest st).visited =
      if c ∈ st.visited ∨ effMax < d then st.visited else c :: st.visited := by
  unfold sliceStep
  by_cases hv : c ∈ st.visited
  · simp [hv]
  · by_cases hd : effMax < d
    · simp [hv, hd]
    · simp [hv, hd]

/-- Appending one entry adds its estimate to the non-pinned sum exactly
when it is not pinned. -/
theorem nonPinnedTokens_append (r : List ContextNode) (cn : ContextNode) :
    nonPinnedTokens (r ++ [cn]) =
      nonPinnedTokens r + (if cn.pinned then 0 else cn.token_estimate) := by
  unfold nonPinnedTokens
  rw [List.filter_append]
  cases h : cn.pinned <;> simp [h]

/-- One BFS iteration preserves the budget invariant: a non-pinned entry is
only admitted while the running total stays within the effective budget. -/
theorem sliceStep_budget (g : ArborGraph) (pins : List Nat) (effTok effMax c d : Nat)
    (rest : List (Nat × Nat)) (st : SliceState) (h : BudgetInv effTok st) :
    BudgetInv effTok (sliceStep g pins effTok effMax c d rest st) := by
  unfold sliceStep
  by_cases hv : c ∈ st.visited
  · rw [if_pos hv]
    exact h
  · rw [if_neg hv]
    by_cases hd : effMax < d
    · rw [if_pos hd]
      exact h
    · rw [if_neg hd]
      cases hget : g.get c with
      | none =>
        unfold BudgetInv at h ⊢
        simp only [hget]
        exact h
      | some node =>
        simp only [hget]
        by_cases hb : c ∈ pins ∨ st.total + estimate_tokens (mkInfo g c node) ≤ effTok
        · simp only [if_pos hb]
          unfold BudgetInv at h ⊢
          dsimp only
          rw [nonPinnedTokens_append]
          by_cases hp : c ∈ pins
          · have hdp : decide (c ∈ pins) = true := decide_eq_true hp
            simp only [hdp, if_true]
            omega
          · have hdp : decide (c ∈ pins) = false := decide_eq_false hp
            have hbb : st.total + estimate_tokens (mkInfo g c node) ≤ effTok := by
              rcases hb with hb | hb
              · exact absurd hb hp
              · exact hb
            simp only [hdp]
            rw [if_neg Bool.false_ne_true]
            omega
        · simp only [if_neg hb]
          unfold BudgetInv at h ⊢
          exact h

/-- The BFS loop preserves the budget invariant. -/
theorem sliceLoop_budget (g : ArborGraph) (pins : List Nat) (effTok effMax : Nat) :
    ∀ (fuel : Nat) (st : SliceState), BudgetInv effTok st →
      BudgetInv effTok (sliceLoop g pins effTok effMax fuel st) := by
  intro fuel
  induction fuel with
  | zero => intro st h; exact h
  | succ fuel ih =>
    intro st h
    unfold sliceLoop
    match hq : st.queue with
    | [] => exact h
    | (c, d) :: rest => exact ih _ (sliceStep_budget g pins effTok effMax c d rest st h)

/-- One BFS iteration preserves the pinned-result invariant: a pinned node
is pushed to the result the moment it is visited (pinning bypasses the
budget check). -/
theorem sliceStep_pin (g : ArborGraph) (pins : List Nat) (effTok effMax c d : Nat)
    (rest : List (Nat × Nat)) (st : SliceState) (h : PinInv g pins st) :
    PinInv g pins (sliceStep g pins effTok effMax c d rest st) := by
  unfold sliceStep
  by_cases hv : c ∈ st.visited
  · rw [if_pos hv]
    exact h
  · rw [if_neg hv]
    by_cases hd : effMax < d
    · rw [if_pos hd]
      exact h
    · rw [if_neg hd]
      cases hget : g.get c with
      | none =>
        simp only [hget]
        intro v hvmem hvpin node hnode
        rcases List.mem_cons.mp hvmem with rfl | hvm
        · rw [hget] at hnode
          cases hnode
        · exact h v hvm hvpin node hnode
      | some node0 =>
        simp only [hget]
        by_cases hb : c ∈ pins ∨ st.total + estimate_tokens (mkInfo g c node0) ≤ effTok
        · simp only [if_pos hb]
          intro v hvmem hvpin node hnode
          rcases List.mem_cons.mp hvmem with rfl | hvm
          · refine ⟨⟨mkInfo g v node0, estimate_tokens (mkInfo g v node0), d,
              decide (v ∈ pins)⟩, List.mem_append_right _ (List.mem_singleton.mpr rfl), ?_, ?_⟩
            · rw [hget] at hnode
              injection hnode with he
              rw [← he]
            · exact decide_eq_true hvpin
          · obtain ⟨cn, hcn, hcni⟩ := h v hvm hvpin node hnode
            exact ⟨cn, List.mem_append_left _ hcn, hcni⟩
        · simp only [if_neg hb]
          intro v hvmem hvpin node hnode
          rcases List.mem_cons.mp hvmem with rfl | hvm
          · exact absurd (Or.inl hvpin) hb
          · exact h v hvm hvpin node hnode

/-- The BFS loop preserves the pinned-result invariant. -/
theorem sliceLoop_pin (g : ArborGraph) (pins : List Nat) (effTok effMax : Nat) :
    ∀ (fuel : Nat) (st : SliceState), PinInv g pins st →
      PinInv g pins (sliceLoop g pins effTok effMax fuel st) := by
  intro fuel
  induction fuel with
  | zero => intro st h; exact h
  | succ fuel ih =>
    intro st h
    unfold sliceLoop
    match hq : st.queue with
    | [] => exact h
    | (c, d) :: rest => exact ih _ (sliceStep_pin g pins effTok effMax c d rest st h)

/-- The tail of a well-shaped queue is well-shaped. -/
theorem queueOk_tail {x : Nat × Nat} {q : List (Nat × Nat)} (h : QueueOk (x :: q)) :
    QueueOk q := by
  simp only [QueueOk, queueDepths] at h ⊢
  obtain ⟨hp, hs⟩ := h
  rw [List.map_cons] at hp hs
  exact ⟨(List.pairwise_cons.mp hp).2,
    fun d₁ h₁ d₂ h₂ => hs d₁ (List.mem_cons_of_mem _ h₁) d₂ (List.mem_cons_of_mem _ h₂)⟩

/-- Every neighbor push carries depth `d + 1`. -/
theorem pushes_depth (g : ArborGraph) (vis : List Nat) (c d : Nat) :
    ∀ pr ∈ neighborPushes g vis c d, pr.2 = d + 1 := by
  intro pr hpr
  unfold neighborPushes at hpr
  rcases List.mem_append.mp hpr with hpr | hpr <;>
  · obtain ⟨e, _, hfe⟩ := List.mem_filterMap.mp hpr
    split at hfe
    · injection hfe with he
      rw [← he]
    · cases hfe

/-- A constant list is (≤)-sorted. -/
theorem pairwise_le_of_const (l : List Nat) (a : Nat) (h : ∀ x ∈ l, x = a) :
    List.Pairwise (· ≤ ·) l := by
  induction l with
  | nil => exact List.Pairwise.nil
  | cons x xs ih =>
    rw [List.pairwise_cons]
    refine ⟨fun y hy => ?_, ih fun y hy => h y (List.mem_cons_of_mem _ hy)⟩
    rw [h x (List.mem_cons_self _ _), h y (List.mem_cons_of_mem _ hy)]

/-- Dequeuing the front and appending depth-`d+1` pushes keeps the queue
well-shaped (the classic two-level BFS queue property). -/
theorem queueOk_extend {c d : Nat} {rest ps : List (Nat × Nat)}
    (h : QueueOk ((c, d) :: rest)) (hps : ∀ pr ∈ ps, pr.2 = d + 1) :
    QueueOk (rest ++ ps) := by
  simp only [QueueOk, queueDepths] at h ⊢
  obtain ⟨hp, hs⟩ := h
  rw [List.map_cons] at hp hs
  obtain ⟨hhead, htail⟩ := List.pairwise_cons.mp hp
  have hpsd : ∀ x ∈ ps.map Prod.snd, x = d + 1 := by
    intro x hx
    obtain ⟨pr, hpr, rfl⟩ := List.mem_map.mp hx
    exact hps pr hpr
  have hrest_le : ∀ a ∈ rest.map Prod.snd, a ≤ d + 1 := by
    intro a ha
    exact hs d (List.mem_cons_self _ _) a (List.mem_cons_of_mem _ ha)
  rw [List.map_append]
  constructor
  · rw [List.pairwise_append]
    refine ⟨htail, pairwise_le_of_const _ (d + 1) hpsd, ?_⟩
    intro a ha b hb
    rw [hpsd b hb]
    exact hrest_le a ha
  · intro d₁ h₁ d₂ h₂
    rcases List.mem_append.mp h₁ with h₁ | h₁ <;> rcases List.mem_append.mp h₂ with h₂ | h₂
    · exact hs d₁ (List.mem_cons_of_mem _ h₁) d₂ (List.mem_cons_of_mem _ h₂)
    · rw [hpsd d₂ h₂]
      have := hhead d₁ h₁
      omega
    · rw [hpsd d₁ h₁]
      have := hrest_le d₂ h₂
      omega
    · rw [hpsd d₁ h₁, hpsd d₂ h₂]
      omega

/-- One BFS iteration keeps the queue well-shaped. -/
theorem sliceStep_queueOk (g : ArborGraph) (pins : List Nat) (effTok effMax c d : Nat)
    (rest : List (Nat × Nat)) (st : SliceState) (hq : QueueOk ((c, d) :: rest)) :
    QueueOk ((sliceStep g pins effTok effMax c d rest st).queue) := by
  rw [sliceStep_queue]
  by_cases hcase : c ∈ st.visited ∨ effMax < d
  · rw [if_pos hcase]
    exact queueOk_tail hq
  · rw [if_neg hcase]
    by_cases hdd : d < effMax
    · rw [if_pos hdd]
      exact queueOk_extend hq (pushes_depth g _ c d)
    · rw [if_neg hdd]
      rw [List.append_nil]
      exact queueOk_tail hq

/-- A hop-bounded chain is a fresh chain for the empty visited set. -/
theorem pathTo_freshPath {g : ArborGraph} {u v j : Nat} (h : PathTo g u v j) :
    FreshPath g [] u v j := by
  induction h with
  | refl u d => exact FreshPath.refl u d (List.not_mem_nil u)
  | step hadj _ ih => exact FreshPath.step (List.not_mem_nil _) hadj ih

/-- The head of a fresh chain is unvisited. -/
theorem freshPath_head {g : ArborGraph} {vis : List Nat} {q v j : Nat}
    (h : FreshPath g vis q v j) : q ∉ vis := by
  cases h with
  | refl _ _ hn => exact hn
  | step hn _ _ => exact hn

/-- Cutting a fresh chain at a newly visited node `c`: either the chain
ends at `c`, or it avoids `c` entirely, or its suffix after the last
occurrence of `c` starts at a neighbor of `c` and is strictly shorter. -/
theorem freshPath_cut {g : ArborGraph} {vis : List Nat} {q v j : Nat} (c : Nat)
    (h : FreshPath g vis q v j) :
    v = c ∨ FreshPath g (c :: vis) q v j ∨
      ∃ w j', adjacent g c w ∧ FreshPath g (c :: vis) w v j' ∧ j' + 1 ≤ j := by
  induction h with
  | refl u d hn =>
    by_cases hc : u = c
    · exact Or.inl hc
    · refine Or.inr (Or.inl (FreshPath.refl u d ?_))
      intro hmem
      rcases List.mem_cons.mp hmem with h | h
      · exact hc h
      · exact hn h
  | @step u w v d hn hadj htail ih =>
    rcases ih with hvc | hmid | ⟨w', j', hadj', hfp', hle⟩
    · exact Or.inl hvc
    · by_cases huc : u = c
      · subst huc
        exact Or.inr (Or.inr ⟨w, d, hadj, hmid, Nat.le_refl _⟩)
      · refine Or.inr (Or.inl (FreshPath.step ?_ hadj hmid))
        intro hmem
        rcases List.mem_cons.mp hmem with h | h
        · exact huc h
        · exact hn h
    · exact Or.inr (Or.inr ⟨w', j', hadj', hfp', by omega⟩)

/-- A neighbor of the node being visited that is still unvisited really is
among the pushes. -/
theorem push_mem {g : ArborGraph} {c w : Nat} (vis' : List Nat) (d : Nat)
    (hadj : adjacent g c w) (hw : w ∉ vis') :
    (w, d + 1) ∈ neighborPushes g vis' c d := by
  obtain ⟨e, he, horient⟩ := hadj
  unfold neighborPushes
  rcases horient with ⟨h1, h2⟩ | ⟨h1, h2⟩
  · apply List.mem_append_right
    apply List.mem_filterMap.mpr
    refine ⟨e, he, ?_⟩
    rw [if_pos ⟨h1, by rw [h2]; exact hw⟩, h2]
  · apply List.mem_append_left
    apply List.mem_filterMap.mpr
    refine ⟨e, he, ?_⟩
    rw [if_pos ⟨h2, by rw [h1]; exact hw⟩, h1]

/-- One BFS iteration preserves the completeness invariant. -/
theorem sliceStep_cover (g : ArborGraph) (pins : List Nat) (effTok effMax target c d : Nat)
    (rest : List (Nat × Nat)) (st : SliceState)
    (hqueue : st.queue = (c, d) :: rest)
    (hq : QueueOk ((c, d) :: rest))
    (h : CoverInv g target effMax st) :
    CoverInv g target effMax (sliceStep g pins effTok effMax c d rest st) := by
  intro v j hpath hj
  rw [sliceStep_visited, sliceStep_queue]
  rcases h v j hpath hj with hvis | ⟨q, dq, jj, hqmem, hfp, hbound⟩
  · by_cases hcase : c ∈ st.visited ∨ effMax < d
    · simp only [if_pos hcase]
      exact Or.inl hvis
    · simp only [if_neg hcase]
      exact Or.inl (List.mem_cons_of_mem _ hvis)
  · rw [hqueue] at hqmem
    by_cases hcase : c ∈ st.visited ∨ effMax < d
    · simp only [if_pos hcase]
      rcases List.mem_cons.mp hqmem with heq | hrest
      · rw [Prod.mk.injEq] at heq
        obtain ⟨h1, h2⟩ := heq
        rcases hcase with hvc | hdc
        · rw [h1] at hfp
          exact absurd hvc (freshPath_head hfp)
        · rw [h2] at hbound
          exact absurd hbound (by omega)
      · exact Or.inr ⟨q, dq, jj, hrest, hfp, hbound⟩
    · simp only [if_neg hcase]
      push_neg at hcase
      obtain ⟨hv, hd⟩ := hcase
      rcases freshPath_cut c hfp with hvc | hmid | ⟨w, j', hadj, hfp', hle⟩
      · subst hvc
        exact Or.inl (List.mem_cons_self _ _)
      · rcases List.mem_cons.mp hqmem with heq | hrest
        · rw [Prod.mk.injEq] at heq
          obtain ⟨h1, h2⟩ := heq
          rw [h1] at hmid
          exact absurd (List.mem_cons_self c st.visited) (freshPath_head hmid)
        · exact Or.inr ⟨q, dq, jj, List.mem_append_left _ hrest, hmid, hbound⟩
      · have hdq : d ≤ dq := by
          rcases List.mem_cons.mp hqmem with heq | hrest
          · rw [Prod.mk.injEq] at heq
            omega
          · have hpair := hq.1
            unfold queueDepths at hpair
            rw [List.map_cons] at hpair
            exact (List.pairwise_cons.mp hpair).1 dq
              (List.mem_map_of_mem Prod.snd hrest)
        have hdlt : d < effMax := by omega
        refine Or.inr ⟨w, d + 1, j', ?_, hfp', by omega⟩
        simp only [if_pos hdlt]
        exact List.mem_append_right _ (push_mem _ d hadj (freshPath_head hfp'))

/-- The BFS loop preserves queue shape and completeness jointly. -/
theorem sliceLoop_cover (g : ArborGraph) (pins : List Nat) (effTok effMax target : Nat) :
    ∀ (fuel : Nat) (st : SliceState), QueueOk st.queue → CoverInv g target effMax st →
      QueueOk (sliceLoop g pins effTok effMax fuel st).queue ∧
        CoverInv g target effMax (sliceLoop g pins effTok effMax fuel st) := by
  intro fuel
  induction fuel with
  | zero => intro st hq hc; exact ⟨hq, hc⟩
  | succ fuel ih =>
    intro st hq hc
    unfold sliceLoop
    match hqe : st.queue with
    | [] =>
      simp only []
      exact ⟨hq, hc⟩
    | (c, d) :: rest =>
      rw [hqe] at hq
      simp only []
      exact ih _ (sliceStep_queueOk g pins effTok effMax c d rest st hq)
        (sliceStep_cover g pins effTok effMax target c d rest st hqe hq hc)

/-- Visiting a node can only lower an edge's unvisited-endpoint weight. -/
theorem edgeWeight_cons_le (vis : List Nat) (c : Nat) (e : Nat × Nat × EdgeKind) :
    edgeWeight (c :: vis) e ≤ edgeWeight vis e := by
  unfold edgeWeight
  have key : ∀ x : Nat, (if x ∈ c :: vis then 0 else 1) ≤ (if x ∈ vis then (0 : ℕ) else 1) := by
    intro x
    by_cases hx : x ∈ vis
    · simp [hx, List.mem_cons_of_mem c hx]
    · by_cases hxc : x ∈ c :: vis <;> simp [hx, hxc]
  exact Nat.add_le_add (key e.1) (key e.2.1)

/-- Summed over any edge list, visiting a node can only lower the total
weight. -/
theorem sum_edgeWeight_cons_le (es : List (Nat × Nat × EdgeKind)) (vis : List Nat) (c : Nat) :
    (es.map (edgeWeight (c :: vis))).sum ≤ (es.map (edgeWeight vis)).sum := by
  induction es with
  | nil => simp
  | cons e es ih =>
    rw [List.map_cons, List.map_cons, List.sum_cons, List.sum_cons]
    exact Nat.add_le_add (edgeWeight_cons_le vis c e) ih

/-- Per-edge accounting for one visit: the pushes an edge can contribute,
plus its weight afterwards, are covered by its weight before. -/
theorem edge_push_bound (c : Nat) (vis : List Nat) (hc : c ∉ vis) (e : Nat × Nat × EdgeKind) :
    (if e.2.1 = c ∧ e.1 ∉ c :: vis then 1 else 0) +
      (if e.1 = c ∧ e.2.1 ∉ c :: vis then 1 else 0) +
      edgeWeight (c :: vis) e ≤ edgeWeight vis e := by
  unfold edgeWeight
  by_cases hac : e.1 = c <;> by_cases hbc : e.2.1 = c <;>
    by_cases hav : e.1 ∈ vis <;> by_cases hbv : e.2.1 ∈ vis <;>
    simp_all [List.mem_cons]

/-- The pushes of one visit, over any edge list, are paid for by the drop
in total unvisited-endpoint weight. -/
theorem pushes_length_bound (c d : Nat) (vis : List Nat) (hc : c ∉ vis) :
    ∀ es : List (Nat × Nat × EdgeKind),
      (es.filterMap
          (fun e => if e.2.1 = c ∧ e.1 ∉ c :: vis then some (e.1, d + 1) else none)).length +
        (es.filterMap
          (fun e => if e.1 = c ∧ e.2.1 ∉ c :: vis then some (e.2.1, d + 1) else none)).length +
        (es.map (edgeWeight (c :: vis))).sum ≤ (es.map (edgeWeight vis)).sum := by
  intro es
  induction es with
  | nil => simp
  | cons e es ih =>
    rw [List.filterMap_cons, List.filterMap_cons, List.map_cons, List.map_cons,
      List.sum_cons, List.sum_cons]
    have hb := edge_push_bound c vis hc e
    by_cases hP : e.2.1 = c ∧ e.1 ∉ c :: vis <;>
      by_cases hQ : e.1 = c ∧ e.2.1 ∉ c :: vis
    · rw [if_pos hP] at hb
      rw [if_pos hQ] at hb
      rw [if_pos hP, if_pos hQ]
      simp only []
      simp only [List.length_cons]
      omega
    · rw [if_pos hP] at hb
      rw [if_neg hQ] at hb
      rw [if_pos hP, if_neg hQ]
      simp only []
      simp only [List.length_cons]
      omega
    · rw [if_neg hP] at hb
      rw [if_pos hQ] at hb
      rw [if_neg hP, if_pos hQ]
      simp only []
      simp only [List.length_cons]
      omega
    · rw [if_neg hP] at hb
      rw [if_neg hQ] at hb
      rw [if_neg hP, if_neg hQ]
      simp only []
      omega

/-- The loop potential strictly decreases at every iteration. -/
theorem sliceStep_phi (g : ArborGraph) (pins : List Nat) (effTok effMax c d : Nat)
    (rest : List (Nat × Nat)) (st : SliceState) (hqueue : st.queue = (c, d) :: rest) :
    phi g (sliceStep g pins effTok effMax c d rest st) < phi g st := by
  unfold phi
  rw [sliceStep_queue, sliceStep_visited, hqueue]
  by_cases hcase : c ∈ st.visited ∨ effMax < d
  · simp only [if_pos hcase, List.length_cons]
    omega
  · simp only [if_neg hcase]
    push_neg at hcase
    obtain ⟨hv, hd⟩ := hcase
    by_cases hdd : d < effMax
    · simp only [if_pos hdd]
      have hpb := pushes_length_bound c d st.visited hv g.edges
      unfold neighborPushes
      rw [List.length_append, List.length_append, List.length_cons]
      omega
    · simp only [if_neg hdd]
      rw [List.append_nil, List.length_cons]
      have := sum_edgeWeight_cons_le g.edges st.visited c
      omega

/-- With fuel at least the potential, the BFS queue drains completely. -/
theorem sliceLoop_drain (g : ArborGraph) (pins : List Nat) (effTok effMax : Nat) :
    ∀ (fuel : Nat) (st : SliceState), phi g st ≤ fuel →
      (sliceLoop g pins effTok effMax fuel st).queue = [] := by
  intro fuel
  induction fuel with
  | zero =>
    intro st h
    unfold phi at h
    show st.queue = []
    exact List.length_eq_zero.mp (by omega)
  | succ fuel ih =>
    intro st h
    unfold sliceLoop
    match hqe : st.queue with
    | [] =>
      simp only []
      exact hqe
    | (c, d) :: rest =>
      simp only []
      apply ih
      have hlt := sliceStep_phi g pins effTok effMax c d rest st hqe
      omega

/-- Before anything is visited every edge weighs 2. -/
theorem sum_edgeWeight_nil (es : List (Nat × Nat × EdgeKind)) :
    (es.map (edgeWeight [])).sum = 2 * es.length := by
  induction es with
  | nil => simp
  | cons e es ih =>
    rw [List.map_cons, List.sum_cons, ih]
    have : edgeWeight [] e = 2 := by
      unfold edgeWeight
      simp
    rw [this, List.length_cons]
    ring

/-- The fuel `slice_context` runs with drains the queue: the model's loop
terminates exactly like the Rust `while` loop. -/
theorem sliceRun_queue_nil (g : ArborGraph) (target mt md : Nat) (pins : List Nat) :
    (sliceRun g target mt md pins).queue = [] := by
  unfold sliceRun
  apply sliceLoop_drain
  unfold phi sliceInit sliceFuel
  rw [sum_edgeWeight_nil]
  simp

/-- Stable insertion permutes to a cons. -/
theorem insertCN_perm (x : ContextNode) (l : List ContextNode) :
    (insertCN x l).Perm (x :: l) := by
  induction l with
  | nil => exact List.Perm.refl _
  | cons y ys ih =>
    unfold insertCN
    by_cases h : cnOrd x y = .lt
    · rw [if_pos h]
    · rw [if_neg h]
      exact (ih.cons y).trans (List.Perm.swap x y ys)

/-- The final sort of `slice_context` permutes the collected result. -/
theorem sortResult_perm (l : List ContextNode) : (sortResult l).Perm l := by
  induction l with
  | nil => exact List.Perm.refl _
  | cons x xs ih =>
    unfold sortResult at ih ⊢
    rw [List.foldr_cons]
    exact (insertCN_perm x _).trans (ih.cons x)

/-- Sorting does not change the non-pinned token sum. -/
theorem nonPinnedTokens_sortResult (l : List ContextNode) :
    nonPinnedTokens (sortResult l) = nonPinnedTokens l := by
  unfold nonPinnedTokens
  exact List.Perm.sum_eq (((sortResult_perm l).filter _).map _)

/-- Sorting does not change membership. -/
theorem mem_sortResult {x : ContextNode} {l : List ContextNode} :
    x ∈ sortResult l ↔ x ∈ l :=
  (sortResult_perm l).mem_iff

/-- The initial queue is well-shaped. -/
theorem queueOk_init (target : Nat) : QueueOk [(target, 0)] := by
  constructor
  · simp [queueDepths]
  · intro d₁ h₁ d₂ h₂
    simp [queueDepths] at h₁ h₂
    omega

/-- The initial state satisfies the completeness invariant. -/
theorem coverInv_init (g : ArborGraph) (target effMax : Nat) :
    CoverInv g target effMax (sliceInit target) := by
  intro v j hpath hj
  exact Or.inr ⟨target, 0, j, List.mem_singleton_self _, pathTo_freshPath hpath, by omega⟩

/-- `slice_context` on an existing target, in terms of the BFS run. -/
theorem slice_context_some {g : ArborGraph} {target : Nat} {node : CodeNode}
    (hget : g.get target = some node) (mt md : Nat) (pins : List Nat) :
    g.slice_context target mt md pins =
      { target := mkInfo g target node
        nodes := sortResult (sliceRun g target mt md pins).result
        total_tokens := (sliceRun g target mt md pins).total
        max_tokens := mt
        truncation_reason := (sliceRun g target mt md pins).reason
        query_time_ms := 0 } := by
  unfold ArborGraph.slice_context
  rw [hget]

/-- Vertices of the graph are `get`-table. -/
theorem get_of_lt {g : ArborGraph} {p : Nat} (h : p < g.nodes.length) :
    ∃ node, g.get p = some node := by
  unfold ArborGraph.get
  exact ⟨_, List.get?_eq_get h⟩

/-- C4.  With a positive token budget, the non-pinned entries of a slice
sum to at most `max_tokens`, and every pinned vertex connected to the
target within the effective depth bound appears in the returned nodes
with its pinned flag set (pinned nodes bypass the budget, and neighbors of
budget-excluded nodes are still explored). -/
theorem claim_C4 (g : ArborGraph) (target max_tokens max_depth : Nat) (pins : List Nat)
    (hmt : 0 < max_tokens) :
    nonPinnedTokens (g.slice_context target max_tokens max_depth pins).nodes ≤ max_tokens ∧
      ∀ p ∈ pins, ReachWithin g target p (if max_depth = 0 then usizeMax else max_depth) →
        ∃ cn ∈ (g.slice_context target max_tokens max_depth pins).nodes,
          (∃ node, g.get p = some node ∧ cn.node_info = mkInfo g p node) ∧
          cn.pinned = true := by
  cases hget : g.get target with
  | none =>
    constructor
    · unfold ArborGraph.slice_context
      rw [hget]
      simp [nonPinnedTokens]
    · intro p hp hreach
      obtain ⟨htl, hpl, hpath⟩ := hreach
      exfalso
      unfold ArborGraph.get at hget
      rw [List.get?_eq_get htl] at hget
      cases hget
  | some node =>
    rw [slice_context_some hget]
    have heff : (if max_tokens = 0 then usizeMax else max_tokens) = max_tokens :=
      if_neg (by omega)
    constructor
    · dsimp only
      rw [nonPinnedTokens_sortResult]
      have hb := sliceLoop_budget g pins (if max_tokens = 0 then usizeMax else max_tokens)
        (if max_depth = 0 then usizeMax else max_depth) (sliceFuel g) (sliceInit target)
        ⟨by simp [nonPinnedTokens, sliceInit], by simp [nonPinnedTokens, sliceInit]⟩
      have hb2 : nonPinnedTokens (sliceRun g target max_tokens max_depth pins).result ≤
          (if max_tokens = 0 then usizeMax else max_tokens) := hb.2
      rw [heff] at hb2
      exact hb2
    · intro p hp hreach
      obtain ⟨htl, hpl, hpath⟩ := hreach
      have hcov := sliceLoop_cover g pins (if max_tokens = 0 then usizeMax else max_tokens)
        (if max_depth = 0 then usizeMax else max_depth) target (sliceFuel g)
        (sliceInit target) (queueOk_init target) (coverInv_init g target _)
      have hnil : (sliceLoop g pins (if max_tokens = 0 then usizeMax else max_tokens)
          (if max_depth = 0 then usizeMax else max_depth) (sliceFuel g)
          (sliceInit target)).queue = [] :=
        sliceRun_queue_nil g target max_tokens max_depth pins
      have hvp : p ∈ (sliceRun g target max_tokens max_depth pins).visited := by
        rcases hcov.2 p _ hpath (Nat.le_refl _) with hvis | ⟨q, dq, jj, hqmem, _, _⟩
        · exact hvis
        · rw [hnil] at hqmem
          exact absurd hqmem (List.not_mem_nil _)
      obtain ⟨nodep, hnodep⟩ := get_of_lt hpl
      have hpin := sliceLoop_pin g pins (if max_tokens = 0 then usizeMax else max_tokens)
        (if max_depth = 0 then usizeMax else max_depth) (sliceFuel g) (sliceInit target)
        (by intro v hv hvp' node' hn'; exact absurd hv (List.not_mem_nil v))
      obtain ⟨cn, hcn, hcni, hcnp⟩ := hpin p hvp hp nodep hnodep
      refine ⟨cn, ?_, ⟨nodep, hnodep, hcni⟩, hcnp⟩
      dsimp only
      exact mem_sortResult.mpr hcn

/-- Witness for C4 at a concrete input: on the chain `a → b → c` with
budget 5 (too small even for one node) and `b` pinned, the non-pinned sum
is within budget and the pinned `b` still appears. -/
theorem claim_C4_witness :
    0 < 5 ∧
      nonPinnedTokens (chainGraph.slice_context 0 5 10 [1]).nodes ≤ 5 ∧
      ∃ cn ∈ (chainGraph.slice_context 0 5 10 [1]).nodes,
        (∃ node, chainGraph.get 1 = some node ∧ cn.node_info = mkInfo chainGraph 1 node) ∧
        cn.pinned = true := by
  have h := claim_C4 chainGraph 0 5 10 [1] (by decide)
  refine ⟨by decide, h.1, h.2 1 (by decide) ⟨by decide, by decide, ?_⟩⟩
  have a01 : adjacent chainGraph 0 1 := ⟨(0, 1, .calls), by decide, Or.inl ⟨rfl, rfl⟩⟩
  show PathTo chainGraph 0 1 10
  exact PathTo.step a01 (PathTo.refl 1 9)

/-! ### Store lemmas (claim C5) -/

/-- Lookup after insert. -/
theorem dbGet_dbInsert (db : Db) (k : Key) (v : Val) (k' : Key) :
    dbGet (dbInsert db k v) k' = if k' = k then some v else dbGet db k' := by
  unfold dbGet dbInsert
  by_cases hk : k' = k
  · subst hk
    simp [List.find?]
  · rw [if_neg hk]
    rw [List.find?_cons_of_neg _ (by simp; exact fun h => hk h.symm)]
    induction db with
    | nil => rfl
    | cons p ps ih =>
      by_cases hp : p.1 = k
      · rw [List.filter_cons_of_neg (by simp [hp])]
        rw [List.find?_cons_of_neg _ (by simp [hp]; exact fun h => hk h.symm)]
        exact ih
      · rw [List.filter_cons_of_pos (by simp [hp])]
        by_cases hpk : p.1 = k'
        · rw [List.find?_cons_of_pos _ (by simp [hpk]), List.find?_cons_of_pos _ (by simp [hpk])]
        · rw [List.find?_cons_of_neg _ (by simp [hpk]), List.find?_cons_of_neg _ (by simp [hpk])]
          exact ih

/-- Lookup after remove. -/
theorem dbGet_dbRemove (db : Db) (k : Key) (k' : Key) :
    dbGet (dbRemove db k) k' = if k' = k then none else dbGet db k' := by
  unfold dbGet dbRemove
  by_cases hk : k' = k
  · subst hk
    rw [if_pos rfl]
    induction db with
    | nil => rfl
    | cons p ps ih =>
      by_cases hp : p.1 = k'
      · rw [List.filter_cons_of_neg (by simp [hp])]
        exact ih
      · rw [List.filter_cons_of_pos (by simp [hp]), List.find?_cons_of_neg _ (by simp [hp])]
        exact ih
  · rw [if_neg hk]
    induction db with
    | nil => rfl
    | cons p ps ih =>
      by_cases hp : p.1 = k
      · rw [List.filter_cons_of_neg (by simp [hp])]
        rw [List.find?_cons_of_neg _ (by simp [hp]; exact fun h => hk h.symm)]
        exact ih
      · rw [List.filter_cons_of_pos (by simp [hp])]
        by_cases hpk : p.1 = k'
        · rw [List.find?_cons_of_pos _ (by simp [hpk]), List.find?_cons_of_pos _ (by simp [hpk])]
        · rw [List.find?_cons_of_neg _ (by simp [hpk]), List.find?_cons_of_neg _ (by simp [hpk])]
          exact ih

/-- Unfolding equation for `lastWrite` on a cons. -/
theorem lastWrite_cons (op : BatchOp) (rest : List BatchOp) (k : Key) :
    lastWrite (op :: rest) k =
      match lastWrite rest k with
      | some r => some r
      | none =>
        match op with
        | .bput k' v => if k' = k then some (some v) else none
        | .bdel k' => if k' = k then some none else none := rfl

/-- Lookup after a batch: the last relevant operation wins, falling back to
the original store. -/
theorem dbGet_applyBatch (ops : List BatchOp) :
    ∀ (db : Db) (k : Key),
      dbGet (applyBatch db ops) k =
        match lastWrite ops k with
        | some (some v) => some v
        | some none => none
        | none => dbGet db k := by
  induction ops with
  | nil => intro db k; rfl
  | cons op rest ih =>
    intro db k
    unfold applyBatch at ih ⊢
    rw [List.foldl_cons]
    cases op with
    | bput k' v =>
      rw [ih (dbInsert db k' v) k]
      rw [lastWrite_cons]
      cases hlw : lastWrite rest k with
      | some r => cases r <;> rfl
      | none =>
        simp only []
        rw [dbGet_dbInsert]
        by_cases hk : k' = k
        · subst hk
          rw [if_pos rfl, if_pos rfl]
        · rw [if_neg hk, if_neg (fun h => hk h.symm)]
    | bdel k' =>
      rw [ih (dbRemove db k') k]
      rw [lastWrite_cons]
      cases hlw : lastWrite rest k with
      | some r => cases r <;> rfl
      | none =>
        simp only []
        rw [dbGet_dbRemove]
        by_cases hk : k' = k
        · subst hk
          rw [if_pos rfl, if_pos rfl]
        · rw [if_neg hk, if_neg (fun h => hk h.symm)]

/-- `lastWrite` over a concatenation: the second batch takes precedence. -/
theorem lastWrite_append (l₁ l₂ : List BatchOp) (k : Key) :
    lastWrite (l₁ ++ l₂) k =
      match lastWrite l₂ k with
      | some r => some r
      | none => lastWrite l₁ k := by
  induction l₁ with
  | nil =>
    rw [List.nil_append]
    cases lastWrite l₂ k <;> rfl
  | cons op rest ih =>
    rw [List.cons_append]
    rw [lastWrite_cons, lastWrite_cons]
    rw [ih]
    cases lastWrite l₂ k with
    | some r => rfl
    | none => rfl

/-- Effect of the node-deletion part of a batch on a node key. -/
theorem lastWrite_dels (ids : List String) (id : String) :
    lastWrite (ids.map fun i => BatchOp.bdel (.kNode i)) (.kNode id) =
      if id ∈ ids then some none else none := by
  induction ids with
  | nil => simp [lastWrite]
  | cons i is ih =>
    rw [List.map_cons, lastWrite_cons, ih]
    by_cases hmem : id ∈ is
    · simp [hmem]
    · by_cases hi : i = id
      · subst hi
        simp [hmem]
      · simp [hmem, hi, Ne.symm hi]

/-- The node-deletion part of a batch never touches non-node keys. -/
theorem lastWrite_dels_other (ids : List String) (k : Key) (hk : ∀ s, k ≠ .kNode s) :
    lastWrite (ids.map fun i => BatchOp.bdel (.kNode i)) k = none := by
  induction ids with
  | nil => rfl
  | cons i is ih =>
    rw [List.map_cons, lastWrite_cons, ih]
    simp only []
    rw [if_neg (fun h => hk i h.symm)]

/-- The node-insertion part of a batch never touches non-node keys. -/
theorem lastWrite_puts_other (nodes : List CodeNode) (k : Key) (hk : ∀ s, k ≠ .kNode s) :
    lastWrite (nodes.map fun n => BatchOp.bput (.kNode n.id) (.vNode n)) k = none := by
  induction nodes with
  | nil => rfl
  | cons n ns ih =>
    rw [List.map_cons, lastWrite_cons, ih]
    simp only []
    rw [if_neg (fun h => hk n.id h.symm)]

/-- The node-insertion part of a batch leaves untouched the node keys of
ids it does not carry. -/
theorem lastWrite_puts_none (nodes : List CodeNode) (id : String)
    (h : ∀ n ∈ nodes, n.id ≠ id) :
    lastWrite (nodes.map fun n => BatchOp.bput (.kNode n.id) (.vNode n)) (.kNode id) =
      none := by
  induction nodes with
  | nil => rfl
  | cons n ns ih =>
    rw [List.map_cons, lastWrite_cons, ih (fun m hm => h m (List.mem_cons_of_mem _ hm))]
    simp only []
    rw [if_neg (by simp; exact h n (List.mem_cons_self _ _))]

/-- With duplicate-free ids, the node-insertion part of a batch writes each
carried node under its id. -/
theorem lastWrite_puts_mem (nodes : List CodeNode)
    (hnd : (nodes.map (fun n => n.id)).Nodup) (v : CodeNode) (hv : v ∈ nodes) :
    lastWrite (nodes.map fun n => BatchOp.bput (.kNode n.id) (.vNode n)) (.kNode v.id) =
      some (some (.vNode v)) := by
  induction nodes with
  | nil => exact absurd hv (List.not_mem_nil v)
  | cons n ns ih =>
    rw [List.map_cons] at hnd
    obtain ⟨hhead, htail⟩ := List.nodup_cons.mp hnd
    rw [List.map_cons, lastWrite_cons]
    rcases List.mem_cons.mp hv with rfl | hv'
    · rw [lastWrite_puts_none ns v.id
        (fun m hm he => hhead (he ▸ List.mem_map_of_mem (fun n => n.id) hm))]
      simp
    · rw [ih htail hv']

/-- Arbitrary node key versus the node-insertion part of a batch: either it
is untouched or it receives some carried node with that id. -/
theorem lastWrite_puts_shape (nodes : List CodeNode) (id : String) :
    lastWrite (nodes.map fun n => BatchOp.bput (.kNode n.id) (.vNode n)) (.kNode id) =
        none ∨
      ∃ v ∈ nodes, v.id = id ∧
        lastWrite (nodes.map fun n => BatchOp.bput (.kNode n.id) (.vNode n)) (.kNode id) =
          some (some (.vNode v)) := by
  induction nodes with
  | nil => exact Or.inl rfl
  | cons n ns ih =>
    rw [List.map_cons, lastWrite_cons]
    rcases ih with hnone | ⟨v, hv, hvid, hsome⟩
    · rw [hnone]
      simp only []
      by_cases hn : n.id = id
      · refine Or.inr ⟨n, List.mem_cons_self _ _, hn, ?_⟩
        rw [if_pos (by rw [hn])]
      · rw [if_neg (by simp [hn])]
        exact Or.inl rfl
    · rw [hsome]
      exact Or.inr ⟨v, List.mem_cons_of_mem _ hv, hvid, rfl⟩

/-- Insertion keeps keys unique. -/
theorem dbInsert_noDup {db : Db} (h : NoDupKeys db) (k : Key) (v : Val) :
    NoDupKeys (dbInsert db k v) := by
  unfold NoDupKeys at h ⊢
  unfold dbInsert
  rw [List.map_cons, List.nodup_cons]
  constructor
  · intro hmem
    obtain ⟨p, hp, hpk⟩ := List.mem_map.mp hmem
    have hcond := (List.mem_filter.mp hp).2
    exact (of_decide_eq_true hcond) hpk
  · exact ((List.filter_sublist db).map Prod.fst).nodup h

/-- Removal keeps keys unique. -/
theorem dbRemove_noDup {db : Db} (h : NoDupKeys db) (k : Key) :
    NoDupKeys (dbRemove db k) := by
  unfold NoDupKeys at h ⊢
  unfold dbRemove
  exact ((List.filter_sublist db).map Prod.fst).nodup h

/-- Batches keep keys unique. -/
theorem applyBatch_noDup (ops : List BatchOp) :
    ∀ db : Db, NoDupKeys db → NoDupKeys (applyBatch db ops) := by
  induction ops with
  | nil => intro db h; exact h
  | cons op rest ih =>
    intro db h
    unfold applyBatch at ih ⊢
    rw [List.foldl_cons]
    cases op with
    | bput k v => exact ih _ (dbInsert_noDup h k v)
    | bdel k => exact ih _ (dbRemove_noDup h k)

/-- Every entry of a batched store is an original entry or a batch put. -/
theorem mem_applyBatch (ops : List BatchOp) :
    ∀ (db : Db) (kv : Key × Val), kv ∈ applyBatch db ops →
      kv ∈ db ∨ ∃ op ∈ ops, op = BatchOp.bput kv.1 kv.2 := by
  induction ops with
  | nil => intro db kv h; exact Or.inl h
  | cons op rest ih =>
    intro db kv h
    unfold applyBatch at ih h
    rw [List.foldl_cons] at h
    cases op with
    | bput k v =>
      rcases ih _ kv h with hmem | ⟨op', hop', rfl⟩
      · unfold dbInsert at hmem
        rcases List.mem_cons.mp hmem with rfl | hmem'
        · exact Or.inr ⟨BatchOp.bput k v, List.mem_cons_self _ _, rfl⟩
        · exact Or.inl (List.mem_of_mem_filter hmem')
      · exact Or.inr ⟨_, List.mem_cons_of_mem _ hop', rfl⟩
    | bdel k =>
      rcases ih _ kv h with hmem | ⟨op', hop', rfl⟩
      · exact Or.inl (List.mem_of_mem_filter hmem)
      · exact Or.inr ⟨_, List.mem_cons_of_mem _ hop', rfl⟩

/-- With unique keys, membership coincides with lookup. -/
theorem mem_iff_dbGet {db : Db} (hnd : NoDupKeys db) (k : Key) (v : Val) :
    (k, v) ∈ db ↔ dbGet db k = some v := by
  constructor
  · intro hmem
    induction db with
    | nil => exact absurd hmem (List.not_mem_nil _)
    | cons p ps ih =>
      unfold NoDupKeys at hnd
      rw [List.map_cons, List.nodup_cons] at hnd
      rcases List.mem_cons.mp hmem with rfl | hmem'
      · unfold dbGet
        rw [List.find?_cons_of_pos _ (by simp)]
        rfl
      · by_cases hpk : p.1 = k
        · exfalso
          apply hnd.1
          rw [hpk]
          exact List.mem_map_of_mem Prod.fst hmem'
        · unfold dbGet at ih ⊢
          rw [List.find?_cons_of_neg _ (by simp [hpk])]
          exact ih hnd.2 hmem'
  · intro hget
    unfold dbGet at hget
    cases hfind : db.find? (fun p => p.1 = k) with
    | none => rw [hfind] at hget; cases hget
    | some pair =>
      rw [hfind] at hget
      have hp := List.find?_some hfind
      have hm := List.mem_of_find?_eq_some hfind
      have h1 : pair.1 = k := of_decide_eq_true hp
      have h2 : pair.2 = v := by
        injection hget
      have : pair = (k, v) := Prod.ext h1 h2
      rw [← this]
      exact hm

/-- `scan_prefix(b"n:")` on a store with well-typed node records succeeds
and collects exactly the stored vertex records. -/
theorem scanNodes_ok {db : Db} (hnt : NodeKeysTyped db) :
    ∃ ns, scanNodes db = .ok ns ∧
      ∀ n : CodeNode, n ∈ ns ↔ (Key.kNode n.id, Val.vNode n) ∈ db := by
  induction db with
  | nil =>
    refine ⟨[], rfl, fun n => ?_⟩
    simp
  | cons p rest ih =>
    obtain ⟨k, v⟩ := p
    have hnt' : NodeKeysTyped rest := fun id v h => hnt id v (List.mem_cons_of_mem _ h)
    obtain ⟨ns, hok, hiff⟩ := ih hnt'
    cases k with
    | kMeta =>
      refine ⟨ns, hok, fun n => ?_⟩
      rw [hiff n]
      constructor
      · exact List.mem_cons_of_mem _
      · intro h
        rcases List.mem_cons.mp h with heq | h'
        · cases heq
        · exact h'
    | kFile q =>
      refine ⟨ns, hok, fun n => ?_⟩
      rw [hiff n]
      constructor
      · exact List.mem_cons_of_mem _
      · intro h
        rcases List.mem_cons.mp h with heq | h'
        · cases heq
        · exact h'
    | kMtime q =>
      refine ⟨ns, hok, fun n => ?_⟩
      rw [hiff n]
      constructor
      · exact List.mem_cons_of_mem _
      · intro h
        rcases List.mem_cons.mp h with heq | h'
        · cases heq
        · exact h'
    | kNode id =>
      obtain ⟨m, hv, hmid⟩ := hnt id v (List.mem_cons_self _ _)
      subst hv
      refine ⟨m :: ns, ?_, fun n => ?_⟩
      · show (scanNodes rest).map (fun l => m :: l) = .ok (m :: ns)
        rw [hok]
        rfl
      · constructor
        · intro h
          rcases List.mem_cons.mp h with rfl | h'
          · rw [← hmid]
            exact List.mem_cons_self _ _
          · exact List.mem_cons_of_mem _ ((hiff n).mp h')
        · intro h
          rcases List.mem_cons.mp h with heq | h'
          · rw [Prod.mk.injEq] at heq
            have : n = m := by
              have := heq.2
              injection this
            rw [this]
            exact List.mem_cons_self _ _
          · exact List.mem_cons_of_mem _ ((hiff n).mpr h')

/-- The scanned vertex records have pairwise distinct ids (keys are unique
and each record sits under its own id). -/
theorem scanNodes_nodup {db : Db} (hnd : NoDupKeys db) (hnt : NodeKeysTyped db)
    {ns : List CodeNode} (h : scanNodes db = .ok ns) :
    (ns.map (fun n => n.id)).Nodup := by
  induction db generalizing ns with
  | nil =>
    injection h with he
    rw [← he]
    exact List.nodup_nil
  | cons p rest ih =>
    obtain ⟨k, v⟩ := p
    have hnd' : NoDupKeys rest := by
      unfold NoDupKeys at hnd ⊢
      rw [List.map_cons] at hnd
      exact (List.nodup_cons.mp hnd).2
    have hnt' : NodeKeysTyped rest := fun id v h => hnt id v (List.mem_cons_of_mem _ h)
    cases k with
    | kMeta => exact ih hnd' hnt' h
    | kFile q => exact ih hnd' hnt' h
    | kMtime q => exact ih hnd' hnt' h
    | kNode id =>
      obtain ⟨m, hv, hmid⟩ := hnt id v (List.mem_cons_self _ _)
      subst hv
      have h' : (scanNodes rest).map (fun l => m :: l) = .ok ns := h
      cases hrest : scanNodes rest with
      | error e =>
        rw [hrest] at h'
        cases h'
      | ok ns' =>
        rw [hrest] at h'
        injection h' with he
        rw [← he, List.map_cons, List.nodup_cons]
        refine ⟨?_, ih hnd' hnt' hrest⟩
        intro hmem
        obtain ⟨n, hn, hnid⟩ := List.mem_map.mp hmem
        obtain ⟨ns'', hok'', hiff''⟩ := scanNodes_ok hnt'
        have : ns'' = ns' := by
          rw [hok''] at hrest
          injection hrest
        subst this
        have hentry := (hiff'' n).mp hn
        have hkey : Key.kNode n.id ∈ rest.map Prod.fst :=
          List.mem_map_of_mem Prod.fst hentry
        unfold NoDupKeys at hnd
        rw [List.map_cons] at hnd
        apply (List.nodup_cons.mp hnd).1
        have : Key.kNode n.id = Key.kNode id := by rw [hnid, hmid]
        rw [← this]
        exact hkey

/-- Node-key records stay well-typed across a batch whose puts are
well-typed. -/
theorem nodeTyped_applyBatch {db : Db} (hnt : NodeKeysTyped db) (ops : List BatchOp)
    (hops : ∀ op ∈ ops, ∀ id v, op = BatchOp.bput (.kNode id) v →
      ∃ n, v = Val.vNode n ∧ n.id = id) :
    NodeKeysTyped (applyBatch db ops) := by
  intro id v hmem
  rcases mem_applyBatch ops db (.kNode id, v) hmem with hdb | ⟨op, hop, heq⟩
  · exact hnt id v hdb
  · exact hops op hop id v heq

/-- File-key records stay well-typed across a batch whose puts are
well-typed. -/
theorem fileTyped_applyBatch {db : Db} (hft : FileKeysTyped db) (ops : List BatchOp)
    (hops : ∀ op ∈ ops, ∀ p v, op = BatchOp.bput (.kFile p) v → ∃ ids, v = Val.vIds ids) :
    FileKeysTyped (applyBatch db ops) := by
  intro p v hmem
  rcases mem_applyBatch ops db (.kFile p, v) hmem with hdb | ⟨op, hop, heq⟩
  · exact hft p v hdb
  · exact hops op hop p v heq

/-- With globally duplicate-free ids, `add_nodes` appends exactly the given
records. -/
theorem add_nodes_nodes_of_nodup :
    ∀ (ns : List CodeNode) (b : GraphBuilder),
      ((b.graph.nodes ++ ns).map (fun n => n.id)).Nodup →
      (b.add_nodes ns).graph.nodes = b.graph.nodes ++ ns := by
  intro ns
  induction ns with
  | nil =>
    intro b _
    simp [GraphBuilder.add_nodes]
  | cons n rest ih =>
    intro b h
    unfold GraphBuilder.add_nodes at ih ⊢
    rw [List.foldl_cons]
    have hdisj : (b.graph.nodes.map (fun n => n.id)).Disjoint
        ((n :: rest).map (fun n => n.id)) := by
      rw [List.map_append] at h
      exact (List.nodup_append.mp h).2.2
    have hnone : b.graph.nodes.findIdx? (fun m => m.id = n.id) = none := by
      rw [List.findIdx?_eq_none_iff]
      intro m hm
      simp only [decide_eq_false_iff_not]
      intro he
      exact hdisj (List.mem_map_of_mem _ hm) (by rw [he]; simp)
    have hstep : ArborGraph.add_node b.graph n =
        ({ b.graph with nodes := b.graph.nodes ++ [n] }, b.graph.nodes.length) := by
      unfold ArborGraph.add_node
      rw [hnone]
    rw [hstep]
    rw [ih]
    · rw [List.append_assoc, List.singleton_append]
    · rw [List.append_assoc, List.singleton_append]
      exact h

/-- Every vertex of the built graph came from the input records. -/
theorem add_nodes_sub :
    ∀ (ns : List CodeNode) (b : GraphBuilder),
      ∀ n ∈ (b.add_nodes ns).graph.nodes, n ∈ b.graph.nodes ∨ n ∈ ns := by
  intro ns
  induction ns with
  | nil =>
    intro b n hn
    exact Or.inl hn
  | cons m rest ih =>
    intro b n hn
    unfold GraphBuilder.add_nodes at ih hn
    rw [List.foldl_cons] at hn
    rcases ih _ n hn with h | h
    · unfold ArborGraph.add_node at h
      cases hfind : b.graph.nodes.findIdx? (fun q => q.id = m.id) with
      | some i =>
        rw [hfind] at h
        exact Or.inl h
      | none =>
        rw [hfind] at h
        simp only [] at h
        rcases List.mem_append.mp h with h' | h'
        · exact Or.inl h'
        · rw [List.mem_singleton.mp h']
          exact Or.inr (List.mem_cons_self _ _)
    · exact Or.inr (List.mem_cons_of_mem _ h)

/-- `build` does not change the vertex list. -/
theorem build_nodes (b : GraphBuilder) : b.build.nodes = b.graph.nodes := by
  unfold GraphBuilder.build GraphBuilder.resolve_edges
  exact foldl_addResolved_nodes _ _

/-- `load_graph` on a well-formed store succeeds, and its vertices are
exactly the stored vertex records. -/
theorem load_graph_ok {db : Db} (hnd : NoDupKeys db) (hnt : NodeKeysTyped db) :
    ∃ G, load_graph db = .ok G ∧
      ∀ n : CodeNode, n ∈ G.nodes ↔ (Key.kNode n.id, Val.vNode n) ∈ db := by
  obtain ⟨ns, hok, hiff⟩ := scanNodes_ok hnt
  have hnodup := scanNodes_nodup hnd hnt hok
  refine ⟨if ns.isEmpty then ArborGraph.new
    else (GraphBuilder.mkNew.add_nodes ns).build, ?_, ?_⟩
  · unfold load_graph
    rw [hok]
    rfl
  · intro n
    by_cases hemp : ns.isEmpty = true
    · rw [if_pos hemp]
      have hnil := List.isEmpty_iff.mp hemp
      constructor
      · intro h
        exact absurd h (List.not_mem_nil n)
      · intro h
        have hmem := (hiff n).mpr h
        rw [hnil] at hmem
        exact absurd hmem (List.not_mem_nil n)
    · rw [if_neg hemp]
      have heq : (GraphBuilder.mkNew.add_nodes ns).build.nodes = ns := by
        rw [build_nodes]
        have := add_nodes_nodes_of_nodup ns GraphBuilder.mkNew (by simpa using hnodup)
        simpa using this
      rw [heq]
      exact hiff n

/-- A successful lookup exhibits a store entry. -/
theorem dbGet_mem {db : Db} {k : Key} {v : Val} (h : dbGet db k = some v) :
    (k, v) ∈ db := by
  unfold dbGet at h
  cases hfind : db.find? (fun p => p.1 = k) with
  | none =>
    rw [hfind] at h
    cases h
  | some pair =>
    rw [hfind] at h
    have hp := List.find?_some hfind
    have hm := List.mem_of_find?_eq_some hfind
    have h1 : pair.1 = k := of_decide_eq_true hp
    have h2 : pair.2 = v := by injection h
    have : pair = (k, v) := Prod.ext h1 h2
    rw [← this]
    exact hm

/-- On a store with well-typed file indices, reading a file's id list
succeeds and mirrors the raw lookup. -/
theorem getFileIds_ok {db : Db} (hft : FileKeysTyped db) (F : String) :
    ∃ idsOpt, getFileIds db F = .ok idsOpt ∧
      dbGet db (.kFile F) = idsOpt.map Val.vIds := by
  unfold getFileIds
  cases hget : dbGet db (.kFile F) with
  | none => exact ⟨none, rfl, rfl⟩
  | some v =>
    obtain ⟨ids, rfl⟩ := hft F v (dbGet_mem hget)
    exact ⟨some ids, rfl, rfl⟩

/-- Effect of a one-operation batch. -/
theorem lastWrite_singleton (op : BatchOp) (k : Key) :
    lastWrite [op] k =
      match op with
      | .bput k' v => if k' = k then some (some v) else none
      | .bdel k' => if k' = k then some none else none := rfl

/-- The update batch writes the mtime last. -/
theorem lastWrite_updateBatch_mtime (F : String) (V : List CodeNode) (t : Nat)
    (old_ids : List String) :
    lastWrite (updateBatch F V t old_ids) (.kMtime F) = some (some (.vU64 t)) := by
  unfold updateBatch
  rw [lastWrite_append, lastWrite_append, lastWrite_cons, lastWrite_singleton]
  simp

/-- The update batch writes the new file index. -/
theorem lastWrite_updateBatch_file (F : String) (V : List CodeNode) (t : Nat)
    (old_ids : List String) :
    lastWrite (updateBatch F V t old_ids) (.kFile F) =
      some (some (.vIds (V.map (fun n => n.id)))) := by
  unfold updateBatch
  rw [lastWrite_append, lastWrite_append, lastWrite_cons, lastWrite_singleton]
  simp

/-- The update batch stores every carried record under its id. -/
theorem lastWrite_updateBatch_mem (F : String) (V : List CodeNode) (t : Nat)
    (old_ids : List String) (hnd : (V.map (fun n => n.id)).Nodup)
    (v : CodeNode) (hv : v ∈ V) :
    lastWrite (updateBatch F V t old_ids) (.kNode v.id) = some (some (.vNode v)) := by
  unfold updateBatch
  rw [lastWrite_append, lastWrite_append, lastWrite_cons, lastWrite_singleton,
    lastWrite_puts_mem V hnd v hv]
  simp

/-- On node ids it does not carry, the update batch deletes exactly the
file's previous ids. -/
theorem lastWrite_updateBatch_other (F : String) (V : List CodeNode) (t : Nat)
    (old_ids : List String) (id : String) (hne : ∀ v ∈ V, v.id ≠ id) :
    lastWrite (updateBatch F V t old_ids) (.kNode id) =
      if id ∈ old_ids then some none else none := by
  unfold updateBatch
  rw [lastWrite_append, lastWrite_append, lastWrite_cons, lastWrite_singleton,
    lastWrite_puts_none V id hne, lastWrite_dels old_ids id]
  by_cases hmem : id ∈ old_ids <;> simp [hmem]

/-- The removal batch deletes the mtime. -/
theorem lastWrite_removeBatch_mtime (F : String) (old_ids : List String) :
    lastWrite (removeBatch F old_ids) (.kMtime F) = some none := by
  unfold removeBatch
  rw [lastWrite_append, lastWrite_cons, lastWrite_singleton]
  simp

/-- The removal batch deletes the file index. -/
theorem lastWrite_removeBatch_file (F : String) (old_ids : List String) :
    lastWrite (removeBatch F old_ids) (.kFile F) = some none := by
  unfold removeBatch
  rw [lastWrite_append, lastWrite_cons, lastWrite_singleton]
  simp

/-- The removal batch deletes exactly the listed node ids. -/
theorem lastWrite_removeBatch_node (F : String) (old_ids : List String) (id : String) :
    lastWrite (removeBatch F old_ids) (.kNode id) =
      if id ∈ old_ids then some none else none := by
  unfold removeBatch
  rw [lastWrite_append, lastWrite_cons, lastWrite_singleton, lastWrite_dels old_ids id]
  by_cases hmem : id ∈ old_ids <;> simp [hmem]

/-- C5.  Store round-trip: on a well-formed store, after
`update_file(F, V, t)` a `load_graph()` contains, among the vertices
originating from `F`, exactly the set `V` (compared as sets by id), and
`get_mtime(F)` returns `t`; after the subsequent `remove_file(F)` no
vertex from `F` remains in `load_graph()`, and `get_mtime(F)` and
`get_file_nodes(F)` return `None`. -/
theorem claim_C5 (db : Db) (F : String) (V : List CodeNode) (t : Nat)
    (hnd : NoDupKeys db) (hnt : NodeKeysTyped db) (hft : FileKeysTyped db)
    (hob : OwnedBy db F)
    (hVf : ∀ v ∈ V, v.file = F) (hVnd : (V.map (fun v => v.id)).Nodup) :
    ∃ db', update_file db F V t = .ok db' ∧
      get_mtime db' F = .ok (some t) ∧
      (∃ G, load_graph db' = .ok G ∧
        ∀ id, (∃ n ∈ G.nodes, n.file = F ∧ n.id = id) ↔ ∃ v ∈ V, v.id = id) ∧
      ∃ db'', remove_file db' F = .ok db'' ∧
        get_mtime db'' F = .ok none ∧ get_file_nodes db'' F = .ok none ∧
        ∃ G', load_graph db'' = .ok G' ∧ ∀ n ∈ G'.nodes, n.file ≠ F := by
  obtain ⟨oldOpt, hfids, hfget⟩ := getFileIds_ok hft F
  have hget_file' : dbGet (applyBatch db (updateBatch F V t (oldOpt.getD [])))
      (.kFile F) = some (.vIds (V.map (fun n => n.id))) := by
    rw [dbGet_applyBatch, lastWrite_updateBatch_file]
  have hget_mem' : ∀ v ∈ V, dbGet (applyBatch db (updateBatch F V t (oldOpt.getD [])))
      (.kNode v.id) = some (.vNode v) := by
    intro v hv
    rw [dbGet_applyBatch, lastWrite_updateBatch_mem F V t _ hVnd v hv]
  have hget_other' : ∀ id, (∀ v ∈ V, v.id ≠ id) →
      dbGet (applyBatch db (updateBatch F V t (oldOpt.getD []))) (.kNode id) =
        if id ∈ oldOpt.getD [] then none else dbGet db (.kNode id) := by
    intro id hne
    rw [dbGet_applyBatch, lastWrite_updateBatch_other F V t _ id hne]
    by_cases hmem : id ∈ oldOpt.getD [] <;> simp [hmem]
  have hnd' : NoDupKeys (applyBatch db (updateBatch F V t (oldOpt.getD []))) :=
    applyBatch_noDup _ db hnd
  have hnt' : NodeKeysTyped (applyBatch db (updateBatch F V t (oldOpt.getD []))) := by
    apply nodeTyped_applyBatch hnt
    intro op hop id v heq
    unfold updateBatch at hop
    rcases List.mem_append.mp hop with hop | hop
    · rcases List.mem_append.mp hop with hop | hop
      · obtain ⟨i, _, rfl⟩ := List.mem_map.mp hop
        cases heq
      · obtain ⟨n, hn, rfl⟩ := List.mem_map.mp hop
        rw [BatchOp.bput.injEq] at heq
        obtain ⟨h1, h2⟩ := heq
        injection h1 with h1
        exact ⟨n, h2.symm, h1⟩
    · rcases List.mem_cons.mp hop with rfl | hop
      · injection heq with h1 h2
        cases h1
      · rcases List.mem_cons.mp hop with rfl | hop
        · injection heq with h1 h2
          cases h1
        · exact absurd hop (List.not_mem_nil _)
  have hft' : FileKeysTyped (applyBatch db (updateBatch F V t (oldOpt.getD []))) := by
    apply fileTyped_applyBatch hft
    intro op hop p v heq
    unfold updateBatch at hop
    rcases List.mem_append.mp hop with hop | hop
    · rcases List.mem_append.mp hop with hop | hop
      · obtain ⟨i, _, rfl⟩ := List.mem_map.mp hop
        cases heq
      · obtain ⟨n, hn, rfl⟩ := List.mem_map.mp hop
        injection heq with h1 h2
        cases h1
    · rcases List.mem_cons.mp hop with rfl | hop
      · rw [BatchOp.bput.injEq] at heq
        exact ⟨_, heq.2.symm⟩
      · rcases List.mem_cons.mp hop with rfl | hop
        · injection heq with h1 h2
          cases h1
        · exact absurd hop (List.not_mem_nil _)
  have hOwned : ∀ (id : String) (n : CodeNode), (Key.kNode id, Val.vNode n) ∈ db →
      n.file = F → id ∈ oldOpt.getD [] := by
    intro id n hentry hnF
    obtain ⟨ids, hgds, hin⟩ := hob id n hentry hnF
    have hmm : oldOpt.map Val.vIds = some (Val.vIds ids) := by
      rw [← hfget]
      exact hgds
    obtain ⟨l, hl, hfl⟩ := Option.map_eq_some'.mp hmm
    injection hfl with he2
    rw [hl, Option.getD_some, he2]
    exact hin
  refine ⟨applyBatch db (updateBatch F V t (oldOpt.getD [])), ?_, ?_, ?_, ?_⟩
  · unfold update_file
    rw [hfids]
    rfl
  · unfold get_mtime
    rw [dbGet_applyBatch, lastWrite_updateBatch_mtime]
  · obtain ⟨G, hG, hGiff⟩ := load_graph_ok hnd' hnt'
    refine ⟨G, hG, fun id => ⟨?_, ?_⟩⟩
    · rintro ⟨n, hn, hnF, rfl⟩
      have hgetn := (mem_iff_dbGet hnd' _ _).mp ((hGiff n).mp hn)
      by_cases hvid : ∃ v ∈ V, v.id = n.id
      · exact hvid
      · exfalso
        push_neg at hvid
        rw [hget_other' n.id hvid] at hgetn
        by_cases hold : n.id ∈ oldOpt.getD []
        · rw [if_pos hold] at hgetn
          cases hgetn
        · rw [if_neg hold] at hgetn
          exact hold (hOwned n.id n (dbGet_mem hgetn) hnF)
    · rintro ⟨v, hv, rfl⟩
      exact ⟨v, (hGiff v).mpr ((mem_iff_dbGet hnd' _ _).mpr (hget_mem' v hv)),
        hVf v hv, rfl⟩
  · obtain ⟨oldOpt2, hfids2, hfget2⟩ := getFileIds_ok hft' F
    have hOpt2 : oldOpt2 = some (V.map (fun n => n.id)) := by
      rw [hget_file'] at hfget2
      obtain ⟨l, hl, hfl⟩ := Option.map_eq_some'.mp hfget2.symm
      injection hfl with he2
      rw [hl, he2]
    rw [hOpt2] at hfids2
    refine ⟨applyBatch (applyBatch db (updateBatch F V t (oldOpt.getD [])))
      (removeBatch F (V.map (fun n => n.id))), ?_, ?_, ?_, ?_⟩
    · unfold remove_file
      rw [hfids2]
      rfl
    · unfold get_mtime
      rw [dbGet_applyBatch, lastWrite_removeBatch_mtime]
    · unfold get_file_nodes
      rw [dbGet_applyBatch, lastWrite_removeBatch_file]
    · have hnd'' := applyBatch_noDup (removeBatch F (V.map (fun n => n.id))) _ hnd'
      have hnt'' : NodeKeysTyped (applyBatch (applyBatch db
          (updateBatch F V t (oldOpt.getD []))) (removeBatch F (V.map (fun n => n.id)))) := by
        apply nodeTyped_applyBatch hnt'
        intro op hop id v heq
        unfold removeBatch at hop
        rcases List.mem_append.mp hop with hop | hop
        · obtain ⟨i, _, rfl⟩ := List.mem_map.mp hop
          cases heq
        · rcases List.mem_cons.mp hop with rfl | hop
          · cases heq
          · rcases List.mem_cons.mp hop with rfl | hop
            · cases heq
            · exact absurd hop (List.not_mem_nil _)
      obtain ⟨G', hG', hG'iff⟩ := load_graph_ok hnd'' hnt''
      refine ⟨G', hG', ?_⟩
      intro n hn hnF
      have hgetn := (mem_iff_dbGet hnd'' _ _).mp ((hG'iff n).mp hn)
      rw [dbGet_applyBatch, lastWrite_removeBatch_node] at hgetn
      by_cases hmemV : n.id ∈ V.map (fun m => m.id)
      · rw [if_pos hmemV] at hgetn
        cases hgetn
      · rw [if_neg hmemV] at hgetn
        have hvid : ∀ v ∈ V, v.id ≠ n.id := by
          intro v hv he
          exact hmemV (he ▸ List.mem_map_of_mem _ hv)
        rw [hget_other' n.id hvid] at hgetn
        by_cases hold : n.id ∈ oldOpt.getD []
        · rw [if_pos hold] at hgetn
          cases hgetn
        · rw [if_neg hold] at hgetn
          exact hold (hOwned n.id n (dbGet_mem hgetn) hnF)

theorem claim_C5_witness :
    ∃ db', update_file ([] : Db) "a.rs" [fileNodeA] 7 = .ok db' ∧
      get_mtime db' "a.rs" = .ok (some 7) ∧
      (∃ G, load_graph db' = .ok G ∧
        ∀ id, (∃ n ∈ G.nodes, n.file = "a.rs" ∧ n.id = id) ↔
          ∃ v ∈ [fileNodeA], v.id = id) ∧
      ∃ db'', remove_file db' "a.rs" = .ok db'' ∧
        get_mtime db'' "a.rs" = .ok none ∧ get_file_nodes db'' "a.rs" = .ok none ∧
        ∃ G', load_graph db'' = .ok G' ∧ ∀ n ∈ G'.nodes, n.file ≠ "a.rs" :=
  claim_C5 ([] : Db) "a.rs" [fileNodeA] 7
    (by simp [NoDupKeys])
    (fun id v h => absurd h (List.not_mem_nil _))
    (fun p v h => absurd h (List.not_mem_nil _))
    (fun id n h _ => absurd h (List.not_mem_nil _))
    (by decide)
    (by decide)

end Arbor
